import Mathlib

/-!
Verification development for the MCP rust SDK core (client transport actor,
server byte-stream source and request loop, tool dispatch, typed context).

The Rust sources are shallowly embedded: pure functions become Lean
functions, stateful code becomes explicit state passing, fallible code
returns `Option` / `Except`, and a Rust `panic!` / `Option::unwrap` on `None`
is an explicit `Panic.panicked` value.  `serde_json::Value` is embedded as
the inductive `Json` below; JSON numbers are modelled as integers (the only
numbers the embedded code paths produce or inspect).  The textual JSON layer
(`serde_json::to_string` / `from_str`) is embedded as an executable
renderer/parser pair over `List Char`, and UTF-8 encoding/decoding over
`List Nat` bytes mirrors `String::from_utf8`.
-/

set_option maxHeartbeats 1000000

/-- Characters that the hard brace/quote tokens require us to name. -/
def quoteChar : Char := Char.ofNat 34

def backslashChar : Char := Char.ofNat 92

def lbraceChar : Char := Char.ofNat 123

def rbraceChar : Char := Char.ofNat 125

def nlChar : Char := Char.ofNat 10

/-- Embedding of `serde_json::Value`.  Numbers are modelled as integers. -/
inductive Json where
  | null : Json
  | bool (b : Bool) : Json
  | num (n : Int) : Json
  | str (s : String) : Json
  | arr (items : List Json) : Json
  | obj (fields : List (String × Json)) : Json

/-- Decimal digit character for a value below ten. -/
def digitChar (n : Nat) : Char :=
  match n with
  | 0 => '0' | 1 => '1' | 2 => '2' | 3 => '3' | 4 => '4'
  | 5 => '5' | 6 => '6' | 7 => '7' | 8 => '8' | _ => '9'

/-- Lower-case hexadecimal digit character for a value below sixteen. -/
def hexDigitChar (n : Nat) : Char :=
  match n with
  | 0 => '0' | 1 => '1' | 2 => '2' | 3 => '3' | 4 => '4'
  | 5 => '5' | 6 => '6' | 7 => '7' | 8 => '8' | 9 => '9'
  | 10 => 'a' | 11 => 'b' | 12 => 'c' | 13 => 'd' | 14 => 'e' | _ => 'f'

/-- Decimal rendering of a natural number, most significant digit first. -/
def natToDigits (n : Nat) : List Char :=
  if h : n < 10 then [digitChar n]
  else natToDigits (n / 10) ++ [digitChar (n % 10)]
  decreasing_by exact Nat.div_lt_self (by omega) (by omega)

/-- Rendering of an integer the way Rust `i64: Display` prints it. -/
def intToChars (n : Int) : List Char :=
  if n < 0 then '-' :: natToDigits n.natAbs else natToDigits n.toNat

/-- Value of one decimal digit character. -/
def digitVal (c : Char) : Nat := c.toNat - 48

/-- Accumulate a decimal digit string into a natural number. -/
def digitsToNat (ds : List Char) : Nat :=
  ds.foldl (fun a c => a * 10 + digitVal c) 0

/-- String escaping as `serde_json` performs it: quote, backslash and the
short control escapes, remaining control characters as a hex escape. -/
def escapeChar (c : Char) : List Char :=
  if c = quoteChar then [backslashChar, quoteChar]
  else if c = backslashChar then [backslashChar, backslashChar]
  else if c.toNat = 8 then [backslashChar, 'b']
  else if c.toNat = 9 then [backslashChar, 't']
  else if c.toNat = 10 then [backslashChar, 'n']
  else if c.toNat = 12 then [backslashChar, 'f']
  else if c.toNat = 13 then [backslashChar, 'r']
  else if c.toNat < 32 then
    [backslashChar, 'u', '0', '0', hexDigitChar (c.toNat / 16), hexDigitChar (c.toNat % 16)]
  else [c]

/-- Escape every character of a string body. -/
def escapeList (cs : List Char) : List Char := cs.flatMap escapeChar

/-- Rendering of a JSON string literal, including the surrounding quotes. -/
def renderString (s : String) : List Char :=
  quoteChar :: escapeList s.data ++ [quoteChar]

mutual

/-- Compact rendering of a JSON value, exactly as `serde_json::to_string`
lays it out: no whitespace, fields comma-separated. -/
def Json.render : Json → List Char
  | .null => 'n' :: 'u' :: 'l' :: 'l' :: []
  | .bool true => 't' :: 'r' :: 'u' :: 'e' :: []
  | .bool false => 'f' :: 'a' :: 'l' :: 's' :: 'e' :: []
  | .num n => intToChars n
  | .str s => renderString s
  | .arr items => '[' :: renderItems items ++ [']']
  | .obj fields => lbraceChar :: renderFields fields ++ [rbraceChar]

/-- Comma-separated rendering of array items. -/
def renderItems : List Json → List Char
  | [] => []
  | [v] => v.render
  | v :: w :: rest => v.render ++ ',' :: renderItems (w :: rest)

/-- Comma-separated rendering of object fields. -/
def renderFields : List (String × Json) → List Char
  | [] => []
  | [(k, v)] => renderString k ++ ':' :: v.render
  | (k, v) :: e :: rest => renderString k ++ ':' :: v.render ++ ',' :: renderFields (e :: rest)

end

/-- Whether a character is JSON whitespace. -/
def isWs (c : Char) : Bool :=
  c.toNat = 32 || c.toNat = 9 || c.toNat = 10 || c.toNat = 13

/-- Drop leading JSON whitespace. -/
def skipWs : List Char → List Char
  | [] => []
  | c :: cs => if isWs c then skipWs cs else c :: cs

theorem digitVal_digitChar {d : Nat} (h : d < 10) : digitVal (digitChar d) = d := by
  interval_cases d <;> decide

theorem isDigit_digitChar {d : Nat} (h : d < 10) : (digitChar d).isDigit = true := by
  interval_cases d <;> decide

theorem natToDigits_all_digits (n : Nat) : ∀ c ∈ natToDigits n, c.isDigit = true := by
  induction n using Nat.strong_induction_on with
  | _ n ih =>
    intro c hc
    rw [natToDigits] at hc
    by_cases h : n < 10
    · simp only [h, dif_pos, List.mem_singleton] at hc
      subst hc; exact isDigit_digitChar h
    · simp only [h, dif_neg, not_false_iff, List.mem_append, List.mem_singleton] at hc
      rcases hc with hc | hc
      · exact ih (n / 10) (Nat.div_lt_self (by omega) (by omega)) c hc
      · subst hc; exact isDigit_digitChar (Nat.mod_lt _ (by omega))

theorem natToDigits_ne_nil (n : Nat) : natToDigits n ≠ [] := by
  rw [natToDigits]
  by_cases h : n < 10 <;> simp [h]

theorem digitsToNat_append (xs : List Char) (c : Char) :
    digitsToNat (xs ++ [c]) = digitsToNat xs * 10 + digitVal c := by
  simp [digitsToNat, List.foldl_append]

theorem digitsToNat_natToDigits (n : Nat) : digitsToNat (natToDigits n) = n := by
  induction n using Nat.strong_induction_on with
  | _ n ih =>
    rw [natToDigits]
    by_cases h : n < 10
    · simp [h, digitsToNat, digitVal_digitChar h]
    · simp only [h, dif_neg, not_false_iff]
      rw [digitsToNat_append, ih (n / 10) (Nat.div_lt_self (by omega) (by omega)),
        digitVal_digitChar (Nat.mod_lt _ (by omega))]
      omega

/-- Value of a hexadecimal digit character, if it is one. -/
def hexVal (c : Char) : Option Nat :=
  if 48 ≤ c.toNat ∧ c.toNat ≤ 57 then some (c.toNat - 48)
  else if 97 ≤ c.toNat ∧ c.toNat ≤ 102 then some (c.toNat - 87)
  else if 65 ≤ c.toNat ∧ c.toNat ≤ 70 then some (c.toNat - 55)
  else none

/-- Split off a maximal run of decimal digit characters. -/
def takeDigits : List Char → List Char × List Char
  | [] => ([], [])
  | c :: cs =>
    if c.isDigit then
      let r := takeDigits cs
      (c :: r.1, r.2)
    else ([], c :: cs)

/-- Scan the body of a JSON string literal after the opening quote; returns
the unescaped content and the input following the closing quote. -/
def scanStr : List Char → Option (List Char × List Char)
  | [] => none
  | c :: cs =>
    if c = quoteChar then some ([], cs)
    else if c = backslashChar then
      match cs with
      | [] => none
      | e :: cs1 =>
        if e = quoteChar then (scanStr cs1).map (fun r => (quoteChar :: r.1, r.2))
        else if e = backslashChar then (scanStr cs1).map (fun r => (backslashChar :: r.1, r.2))
        else if e = '/' then (scanStr cs1).map (fun r => ('/' :: r.1, r.2))
        else if e = 'b' then (scanStr cs1).map (fun r => (Char.ofNat 8 :: r.1, r.2))
        else if e = 'f' then (scanStr cs1).map (fun r => (Char.ofNat 12 :: r.1, r.2))
        else if e = 'n' then (scanStr cs1).map (fun r => (Char.ofNat 10 :: r.1, r.2))
        else if e = 'r' then (scanStr cs1).map (fun r => (Char.ofNat 13 :: r.1, r.2))
        else if e = 't' then (scanStr cs1).map (fun r => (Char.ofNat 9 :: r.1, r.2))
        else if e = 'u' then
          match cs1 with
          | c1 :: c2 :: c3 :: c4 :: cs2 =>
            match hexVal c1, hexVal c2, hexVal c3, hexVal c4 with
            | some h1, some h2, some h3, some h4 =>
              let n := ((h1 * 16 + h2) * 16 + h3) * 16 + h4
              if n < 55296 then (scanStr cs2).map (fun r => (Char.ofNat n :: r.1, r.2))
              else none
            | _, _, _, _ => none
          | _ => none
        else none
    else (scanStr cs).map (fun r => (c :: r.1, r.2))

mutual

/-- Fuel-indexed parser for one JSON value, mirroring what
`serde_json::from_str` accepts on the values `Json` can represent.  Returns
the value and the unconsumed remainder. -/
def parseVal : Nat → List Char → Option (Json × List Char)
  | 0, _ => none
  | Nat.succ fuel, input =>
    match skipWs input with
    | [] => none
    | c :: cs =>
      if c = quoteChar then (scanStr cs).map (fun r => (Json.str (String.mk r.1), r.2))
      else if c = lbraceChar then
        match skipWs cs with
        | [] => none
        | d :: ds =>
          if d = rbraceChar then some (Json.obj [], ds)
          else (parseFields fuel (d :: ds)).map (fun r => (Json.obj r.1, r.2))
      else if c = '[' then
        match skipWs cs with
        | [] => none
        | d :: ds =>
          if d = ']' then some (Json.arr [], ds)
          else (parseItems fuel (d :: ds)).map (fun r => (Json.arr r.1, r.2))
      else if c = 'n' then
        match cs with
        | 'u' :: 'l' :: 'l' :: rest => some (Json.null, rest)
        | _ => none
      else if c = 't' then
        match cs with
        | 'r' :: 'u' :: 'e' :: rest => some (Json.bool true, rest)
        | _ => none
      else if c = 'f' then
        match cs with
        | 'a' :: 'l' :: 's' :: 'e' :: rest => some (Json.bool false, rest)
        | _ => none
      else if c = '-' then
        match takeDigits cs with
        | ([], _) => none
        | (ds, rest) => some (Json.num (-(digitsToNat ds : Int)), rest)
      else if c.isDigit then
        match takeDigits (c :: cs) with
        | (ds, rest) => some (Json.num (digitsToNat ds : Int), rest)
      else none

/-- Parse `item ( , item )* ]` inside an array. -/
def parseItems : Nat → List Char → Option (List Json × List Char)
  | 0, _ => none
  | Nat.succ fuel, input =>
    match parseVal fuel input with
    | none => none
    | some (v, rest) =>
      match skipWs rest with
      | [] => none
      | c :: cs =>
        if c = ',' then
          match parseItems fuel cs with
          | some (vs, rest2) => some (v :: vs, rest2)
          | none => none
        else if c = ']' then some ([v], cs)
        else none

/-- Parse `key : value ( , key : value )* \x7d` inside an object. -/
def parseFields : Nat → List Char → Option (List (String × Json) × List Char)
  | 0, _ => none
  | Nat.succ fuel, input =>
    match skipWs input with
    | [] => none
    | c :: cs =>
      if c = quoteChar then
        match scanStr cs with
        | none => none
        | some (k, rest1) =>
          match skipWs rest1 with
          | [] => none
          | d :: ds =>
            if d = ':' then
              match parseVal fuel ds with
              | none => none
              | some (v, rest2) =>
                match skipWs rest2 with
                | [] => none
                | e :: es =>
                  if e = ',' then
                    match parseFields fuel es with
                    | some (fs, rest3) => some ((String.mk k, v) :: fs, rest3)
                    | none => none
                  else if e = rbraceChar then some ([(String.mk k, v)], es)
                  else none
            else none
      else none

end

/-- Top-level parse mirroring `serde_json::from_str`: one value, then only
trailing whitespace may remain. -/
def jsonParse (cs : List Char) : Option Json :=
  match parseVal (cs.length + 1) cs with
  | some (v, rest) => if skipWs rest = [] then some v else none
  | none => none

theorem skipWs_cons {c : Char} (cs : List Char) (h : isWs c = false) :
    skipWs (c :: cs) = c :: cs := by
  simp [skipWs, h]

theorem stringMk_data (s : String) : String.mk s.data = s := rfl

theorem charToNat_inj {c d : Char} (h : c.toNat = d.toNat) : c = d := by
  have h2 := congrArg Char.ofNat h
  rwa [Char.ofNat_toNat, Char.ofNat_toNat] at h2

theorem char_valid_ranges (c : Char) :
    c.toNat < 55296 ∨ (57344 ≤ c.toNat ∧ c.toNat < 1114112) := by
  have h := c.valid
  unfold UInt32.isValidChar Nat.isValidChar at h
  exact h

theorem hexVal_hexDigitChar {d : Nat} (h : d < 16) : hexVal (hexDigitChar d) = some d := by
  interval_cases d <;> decide

theorem char_eq_ofNat {c : Char} {n : Nat} (hn : n < 55296) (h : c.toNat = n) :
    Char.ofNat n = c := by
  subst h
  exact Char.ofNat_toNat c

theorem scanStr_escape (cs : List Char) (rest : List Char) :
    scanStr (escapeList cs ++ quoteChar :: rest) = some (cs, rest) := by
  induction cs with
  | nil => simp [escapeList]; rw [scanStr.eq_def]; simp
  | cons c cs ih =>
    have hstep : escapeList (c :: cs) ++ quoteChar :: rest
        = escapeChar c ++ (escapeList cs ++ quoteChar :: rest) := by
      simp [escapeList]
    rw [hstep]
    by_cases h1 : c = quoteChar
    · subst h1
      simp only [escapeChar, if_pos rfl, List.cons_append, List.nil_append]
      rw [scanStr.eq_def]
      simp +decide [ih]
    · by_cases h2 : c = backslashChar
      · subst h2
        simp only [escapeChar, if_neg (by decide : ¬ backslashChar = quoteChar), if_pos rfl,
          List.cons_append, List.nil_append]
        rw [scanStr.eq_def]
        simp +decide [ih]
      · by_cases h3 : c.toNat = 8
        · have hc : Char.ofNat 8 = c := char_eq_ofNat (by omega) h3
          simp only [escapeChar, if_neg h1, if_neg h2, h3, if_pos rfl, ite_true,
            List.cons_append, List.nil_append]
          rw [scanStr.eq_def]
          simp +decide [ih]
          exact hc
        · by_cases h4 : c.toNat = 9
          · have hc : Char.ofNat 9 = c := char_eq_ofNat (by omega) h4
            simp only [escapeChar, if_neg h1, if_neg h2, h3, h4, ite_false, ite_true,
              List.cons_append, List.nil_append]
            rw [scanStr.eq_def]
            simp +decide [ih]
            exact hc
          · by_cases h5 : c.toNat = 10
            · have hc : Char.ofNat 10 = c := char_eq_ofNat (by omega) h5
              simp only [escapeChar, if_neg h1, if_neg h2, h3, h4, h5, ite_false, ite_true,
                List.cons_append, List.nil_append]
              rw [scanStr.eq_def]
              simp +decide [ih]
              exact hc
            · by_cases h6 : c.toNat = 12
              · have hc : Char.ofNat 12 = c := char_eq_ofNat (by omega) h6
                simp only [escapeChar, if_neg h1, if_neg h2, h3, h4, h5, h6, ite_false, ite_true,
                  List.cons_append, List.nil_append]
                rw [scanStr.eq_def]
                simp +decide [ih]
                exact hc
              · by_cases h7 : c.toNat = 13
                · have hc : Char.ofNat 13 = c := char_eq_ofNat (by omega) h7
                  simp only [escapeChar, if_neg h1, if_neg h2, h3, h4, h5, h6, h7, ite_false,
                    ite_true, List.cons_append, List.nil_append]
                  rw [scanStr.eq_def]
                  simp +decide [ih]
                  exact hc
                · by_cases h8 : c.toNat < 32
                  · have hdiv : c.toNat / 16 < 16 := by omega
                    have hmod : c.toNat % 16 < 16 := by omega
                    have hv0 : hexVal '0' = some 0 := by decide
                    simp only [escapeChar, if_neg h1, if_neg h2, h3, h4, h5, h6, h7, h8,
                      ite_false, ite_true, List.cons_append, List.nil_append]
                    rw [scanStr.eq_def]
                    simp +decide [ih, hv0, hexVal_hexDigitChar hdiv, hexVal_hexDigitChar hmod]
                    exact ⟨by omega, char_eq_ofNat (by omega) (by omega)⟩
                  · simp only [escapeChar, if_neg h1, if_neg h2, h3, h4, h5, h6, h7, h8,
                      ite_false, List.cons_append, List.nil_append]
                    rw [scanStr.eq_def]
                    simp [h1, h2, ih]

/-- The input does not begin with a decimal digit (so a digit run before it
is maximal). -/
def notDigitStart : List Char → Prop
  | [] => True
  | c :: _ => c.isDigit = false

theorem takeDigits_append (ds rest : List Char)
    (hds : ∀ c ∈ ds, c.isDigit = true) (hrest : notDigitStart rest) :
    takeDigits (ds ++ rest) = (ds, rest) := by
  induction ds with
  | nil =>
    cases rest with
    | nil => rfl
    | cons c cs =>
      simp only [notDigitStart] at hrest
      simp [takeDigits, hrest]
  | cons c cs ih =>
    have hc : c.isDigit = true := hds c (by simp)
    simp [List.cons_append, takeDigits, hc, ih (fun d hd => hds d (by simp [hd]))]

mutual

/-- Fuel sufficient for `parseVal` to parse a rendered value. -/
def fuelV : Json → Nat
  | .null => 1
  | .bool _ => 1
  | .num _ => 1
  | .str _ => 1
  | .arr items => 1 + fuelI items
  | .obj fields => 1 + fuelF fields

/-- Fuel sufficient for `parseItems` on a rendered item list. -/
def fuelI : List Json → Nat
  | [] => 1
  | v :: rest => 1 + max (fuelV v) (fuelI rest)

/-- Fuel sufficient for `parseFields` on a rendered field list. -/
def fuelF : List (String × Json) → Nat
  | [] => 1
  | (_, v) :: rest => 1 + max (fuelV v) (fuelF rest)

end

theorem fuelV_pos (v : Json) : 1 ≤ fuelV v := by
  cases v <;> simp [fuelV]

theorem isDigit_bounds {c : Char} (h : c.isDigit = true) : 48 ≤ c.toNat ∧ c.toNat ≤ 57 := by
  simp only [Char.isDigit, Bool.and_eq_true, decide_eq_true_eq] at h
  obtain ⟨h1, h2⟩ := h
  exact ⟨h1, h2⟩

/-- The first rendered character of any value: it exists, is not whitespace,
not a digit-run continuation risk, and is not a closing bracket. -/
theorem render_head_ok (v : Json) :
    ∃ c cs, Json.render v = c :: cs ∧ isWs c = false ∧ c ≠ ']' ∧ c ≠ rbraceChar := by
  cases v with
  | null => exact ⟨'n', _, rfl, by decide, by decide, by decide⟩
  | bool b =>
    cases b
    · exact ⟨'f', _, rfl, by decide, by decide, by decide⟩
    · exact ⟨'t', _, rfl, by decide, by decide, by decide⟩
  | num n =>
    by_cases h : n < 0
    · exact ⟨'-', natToDigits n.natAbs, by simp [Json.render, intToChars, h], by decide,
        by decide, by decide⟩
    · rcases hd : natToDigits n.toNat with _ | ⟨c, cs⟩
      · exact absurd hd (natToDigits_ne_nil _)
      · have hdig : c.isDigit = true := natToDigits_all_digits n.toNat c (by rw [hd]; simp)
        have h48 : 48 ≤ c.toNat ∧ c.toNat ≤ 57 := isDigit_bounds hdig
        refine ⟨c, cs, by simp [Json.render, intToChars, h, hd], ?_, ?_, ?_⟩
        · simp [isWs]
          omega
        · intro hc; subst hc; revert h48; decide
        · intro hc; subst hc; revert h48; decide
  | str s => exact ⟨quoteChar, _, rfl, by decide, by decide, by decide⟩
  | arr items => exact ⟨'[', _, rfl, by decide, by decide, by decide⟩
  | obj fields => exact ⟨lbraceChar, _, rfl, by decide, by decide, by decide⟩

theorem fuelI_pos (xs : List Json) : 1 ≤ fuelI xs := by
  cases xs <;> simp [fuelI]

theorem fuelF_pos (fs : List (String × Json)) : 1 ≤ fuelF fs := by
  cases fs with
  | nil => simp [fuelF]
  | cons e fs => rcases e with ⟨k, v⟩; simp [fuelF]

theorem notDigitStart_cons {c : Char} (h : c.isDigit = false) (l : List Char) :
    notDigitStart (c :: l) := h

theorem digit_head_facts {c : Char} (h : c.isDigit = true) :
    (c = quoteChar) = False ∧ (c = lbraceChar) = False ∧ (c = '[') = False
    ∧ (c = 'n') = False ∧ (c = 't') = False ∧ (c = 'f') = False
    ∧ (c = '-') = False ∧ isWs c = false := by
  have hb := isDigit_bounds h
  refine ⟨?_, ?_, ?_, ?_, ?_, ?_, ?_, ?_⟩
  · exact eq_false (fun he => by subst he; revert hb; decide)
  · exact eq_false (fun he => by subst he; revert hb; decide)
  · exact eq_false (fun he => by subst he; revert hb; decide)
  · exact eq_false (fun he => by subst he; revert hb; decide)
  · exact eq_false (fun he => by subst he; revert hb; decide)
  · exact eq_false (fun he => by subst he; revert hb; decide)
  · exact eq_false (fun he => by subst he; revert hb; decide)
  · simp [isWs]
    omega

theorem parse_render_all : ∀ n : Nat,
    (∀ v rest, fuelV v ≤ n → notDigitStart rest →
      parseVal n (Json.render v ++ rest) = some (v, rest))
    ∧ (∀ xs rest, xs ≠ [] → fuelI xs ≤ n →
      parseItems n (renderItems xs ++ ']' :: rest) = some (xs, rest))
    ∧ (∀ fs rest, fs ≠ [] → fuelF fs ≤ n →
      parseFields n (renderFields fs ++ rbraceChar :: rest) = some (fs, rest)) := by
  intro n
  induction n with
  | zero =>
    refine ⟨fun v rest hf _ => absurd hf (by have := fuelV_pos v; omega),
      fun xs rest _ hf => absurd hf (by have := fuelI_pos xs; omega),
      fun fs rest _ hf => absurd hf (by have := fuelF_pos fs; omega)⟩
  | succ n ih =>
    obtain ⟨ihV, ihI, ihF⟩ := ih
    refine ⟨?_, ?_, ?_⟩
    · intro v rest hfuel hrest
      cases v with
      | null => simp +decide [Json.render, parseVal, skipWs, isWs]
      | bool b => cases b <;> simp +decide [Json.render, parseVal, skipWs, isWs]
      | num m =>
        by_cases hm : m < 0
        · rcases hd : natToDigits m.natAbs with _ | ⟨c, cs⟩
          · exact absurd hd (natToDigits_ne_nil _)
          · have hinput : Json.render (Json.num m) ++ rest = '-' :: (c :: (cs ++ rest)) := by
              simp [Json.render, intToChars, hm, hd]
            have htd : takeDigits (c :: (cs ++ rest)) = (c :: cs, rest) := by
              have := takeDigits_append (c :: cs) rest
                (hd ▸ natToDigits_all_digits m.natAbs) hrest
              simpa using this
            have hdn : (digitsToNat (c :: cs) : Int) = -m := by
              rw [← hd, digitsToNat_natToDigits]
              omega
            rw [hinput]
            simp +decide [parseVal, skipWs, isWs, htd, hdn]
        · rcases hd : natToDigits m.toNat with _ | ⟨c, cs⟩
          · exact absurd hd (natToDigits_ne_nil _)
          · have hdig : c.isDigit = true :=
              natToDigits_all_digits m.toNat c (by rw [hd]; simp)
            obtain ⟨f1, f2, f3, f4, f5, f6, f7, f8⟩ := digit_head_facts hdig
            have hinput : Json.render (Json.num m) ++ rest = c :: (cs ++ rest) := by
              simp [Json.render, intToChars, hm, hd]
            have htd : takeDigits (c :: (cs ++ rest)) = (c :: cs, rest) := by
              have := takeDigits_append (c :: cs) rest
                (hd ▸ natToDigits_all_digits m.toNat) hrest
              simpa using this
            have hdn : (digitsToNat (c :: cs) : Int) = m := by
              rw [← hd, digitsToNat_natToDigits]
              omega
            rw [hinput]
            simp [parseVal, skipWs, f1, f2, f3, f4, f5, f6, f7, f8, hdig, htd, hdn]
      | str s =>
        have hinput : Json.render (Json.str s) ++ rest
            = quoteChar :: (escapeList s.data ++ quoteChar :: rest) := by
          simp [Json.render, renderString]
        rw [hinput]
        simp +decide [parseVal, skipWs, isWs, scanStr_escape, stringMk_data]
      | arr items =>
        cases items with
        | nil => simp +decide [Json.render, renderItems, parseVal, skipWs, isWs]
        | cons x xs =>
          obtain ⟨c, cs, hx, hws, hbr, hbr2⟩ := render_head_ok x
          obtain ⟨tl, htl⟩ : ∃ tl, renderItems (x :: xs) = c :: tl := by
            cases xs <;> simp [renderItems, hx]
          have hf2 : fuelI (x :: xs) ≤ n := by
            simp [fuelV] at hfuel
            omega
          have hpi : parseItems n (renderItems (x :: xs) ++ ']' :: rest)
              = some (x :: xs, rest) := ihI (x :: xs) rest (by simp) hf2
          rw [htl] at hpi
          simp only [List.cons_append] at hpi
          have hinput : Json.render (Json.arr (x :: xs)) ++ rest
              = '[' :: (c :: (tl ++ ']' :: rest)) := by
            simp [Json.render, htl]
          rw [hinput]
          simp +decide [parseVal, skipWs, hws, hbr, hpi]
      | obj fields =>
        cases fields with
        | nil => simp +decide [Json.render, renderFields, parseVal, skipWs, isWs]
        | cons kv fs =>
          rcases kv with ⟨k, v⟩
          obtain ⟨tl, htl⟩ : ∃ tl, renderFields ((k, v) :: fs) = quoteChar :: tl := by
            cases fs <;> simp [renderFields, renderString]
          have hf2 : fuelF ((k, v) :: fs) ≤ n := by
            simp [fuelV] at hfuel
            omega
          have hpf : parseFields n (renderFields ((k, v) :: fs) ++ rbraceChar :: rest)
              = some ((k, v) :: fs, rest) := ihF ((k, v) :: fs) rest (by simp) hf2
          rw [htl] at hpf
          simp only [List.cons_append] at hpf
          have hinput : Json.render (Json.obj ((k, v) :: fs)) ++ rest
              = lbraceChar :: (quoteChar :: (tl ++ rbraceChar :: rest)) := by
            simp [Json.render, htl]
          rw [hinput]
          simp +decide [parseVal, skipWs, isWs, hpf]
    · intro xs rest hne hfuel
      rcases xs with _ | ⟨x, xs⟩
      · exact absurd rfl hne
      cases xs with
      | nil =>
        have hfx : fuelV x ≤ n := by
          simp [fuelI] at hfuel
          omega
        have hpv : parseVal n (Json.render x ++ ']' :: rest) = some (x, ']' :: rest) :=
          ihV x (']' :: rest) hfx (notDigitStart_cons (by decide) _)
        simp +decide [renderItems, parseItems, hpv, skipWs, isWs]
      | cons y ys =>
        have hfx : fuelV x ≤ n := by
          simp [fuelI] at hfuel
          omega
        have hfy : fuelI (y :: ys) ≤ n := by
          simp [fuelI] at hfuel ⊢
          omega
        have hpv : parseVal n (Json.render x ++ ',' :: (renderItems (y :: ys) ++ ']' :: rest))
            = some (x, ',' :: (renderItems (y :: ys) ++ ']' :: rest)) :=
          ihV x _ hfx (notDigitStart_cons (by decide) _)
        have hpi : parseItems n (renderItems (y :: ys) ++ ']' :: rest)
            = some (y :: ys, rest) := ihI (y :: ys) rest (by simp) hfy
        have hinput : renderItems (x :: y :: ys) ++ ']' :: rest
            = Json.render x ++ ',' :: (renderItems (y :: ys) ++ ']' :: rest) := by
          simp [renderItems]
        rw [hinput]
        simp +decide [parseItems, hpv, hpi, skipWs, isWs]
    · intro fs rest hne hfuel
      rcases fs with _ | ⟨⟨k, v⟩, fs⟩
      · exact absurd rfl hne
      cases fs with
      | nil =>
        have hfv : fuelV v ≤ n := by
          simp [fuelF] at hfuel
          omega
        have hpv : parseVal n (Json.render v ++ rbraceChar :: rest)
            = some (v, rbraceChar :: rest) :=
          ihV v _ hfv (notDigitStart_cons (by decide) _)
        have hinput : renderFields [(k, v)] ++ rbraceChar :: rest
            = quoteChar :: (escapeList k.data
                ++ quoteChar :: (':' :: (Json.render v ++ rbraceChar :: rest))) := by
          simp [renderFields, renderString]
        rw [hinput]
        simp +decide [parseFields, skipWs, isWs, scanStr_escape, hpv, stringMk_data]
      | cons e fs =>
        have hfv : fuelV v ≤ n := by
          simp [fuelF] at hfuel
          omega
        have hff : fuelF (e :: fs) ≤ n := by
          rcases e with ⟨k2, v2⟩
          simp [fuelF] at hfuel ⊢
          omega
        have hpv : parseVal n
            (Json.render v ++ ',' :: (renderFields (e :: fs) ++ rbraceChar :: rest))
            = some (v, ',' :: (renderFields (e :: fs) ++ rbraceChar :: rest)) :=
          ihV v _ hfv (notDigitStart_cons (by decide) _)
        have hpf : parseFields n (renderFields (e :: fs) ++ rbraceChar :: rest)
            = some (e :: fs, rest) := ihF (e :: fs) rest (by simp) hff
        have hinput : renderFields ((k, v) :: e :: fs) ++ rbraceChar :: rest
            = quoteChar :: (escapeList k.data ++ quoteChar :: (':' :: (Json.render v
                ++ ',' :: (renderFields (e :: fs) ++ rbraceChar :: rest)))) := by
          simp [renderFields, renderString]
        rw [hinput]
        simp +decide [parseFields, skipWs, isWs, scanStr_escape, hpv, hpf, stringMk_data]

theorem json_sizeOf_pos (v : Json) : 1 ≤ sizeOf v := by
  cases v <;> simp

theorem render_length_pos (v : Json) : 1 ≤ (Json.render v).length := by
  obtain ⟨c, cs, hx, -, -, -⟩ := render_head_ok v
  simp [hx]

theorem fuel_le_len_all : ∀ b : Nat,
    (∀ v : Json, sizeOf v ≤ b → fuelV v ≤ (Json.render v).length)
    ∧ (∀ xs : List Json, sizeOf xs ≤ b → fuelI xs ≤ (renderItems xs).length + 1)
    ∧ (∀ fs : List (String × Json), sizeOf fs ≤ b →
        fuelF fs ≤ (renderFields fs).length + 1) := by
  intro b
  induction b with
  | zero =>
    refine ⟨fun v h => absurd h (by have := json_sizeOf_pos v; omega),
      fun xs h => absurd h (by cases xs <;> simp at h ⊢ <;> omega),
      fun fs h => absurd h (by cases fs <;> simp at h ⊢ <;> omega)⟩
  | succ b ih =>
    obtain ⟨ihV, ihI, ihF⟩ := ih
    refine ⟨?_, ?_, ?_⟩
    · intro v hsz
      cases v with
      | null => simp [fuelV, Json.render]
      | bool bb => cases bb <;> simp [fuelV, Json.render]
      | num m =>
        have : 1 ≤ (Json.render (Json.num m)).length := render_length_pos _
        simp [fuelV]
        omega
      | str s => simp [fuelV, Json.render, renderString]
      | arr items =>
        have hsz2 : sizeOf items ≤ b := by simp at hsz; omega
        have := ihI items hsz2
        simp [fuelV, Json.render]
        omega
      | obj fields =>
        have hsz2 : sizeOf fields ≤ b := by simp at hsz; omega
        have := ihF fields hsz2
        simp [fuelV, Json.render]
        omega
    · intro xs hsz
      cases xs with
      | nil => simp [fuelI, renderItems]
      | cons x rest =>
        have hszx : sizeOf x ≤ b := by simp at hsz; omega
        have hszr : sizeOf rest ≤ b := by
          simp at hsz
          have := json_sizeOf_pos x
          omega
        have hx := ihV x hszx
        cases rest with
        | nil =>
          have := render_length_pos x
          simp [fuelI, renderItems, fuelI]
          omega
        | cons y ys =>
          have hr := ihI (y :: ys) hszr
          simp [fuelI, renderItems] at hr ⊢
          omega
    · intro fs hsz
      cases fs with
      | nil => simp [fuelF, renderFields]
      | cons kv rest =>
        rcases kv with ⟨k, v⟩
        have hszx : sizeOf v ≤ b := by simp at hsz; omega
        have hszr : sizeOf rest ≤ b := by
          simp at hsz
          have := json_sizeOf_pos v
          omega
        have hx := ihV v hszx
        cases rest with
        | nil =>
          simp [fuelF, renderFields, renderString]
          omega
        | cons e fs2 =>
          have hr := ihF (e :: fs2) hszr
          rcases e with ⟨k2, v2⟩
          simp [fuelF, renderFields, renderString] at hr ⊢
          omega

theorem jsonParse_render_nl (v : Json) :
    jsonParse (Json.render v ++ [nlChar]) = some v := by
  have hlen := (fuel_le_len_all (sizeOf v)).1 v le_rfl
  have hfuel : fuelV v ≤ (Json.render v ++ [nlChar]).length + 1 := by
    simp [List.length_append]
    omega
  have h := (parse_render_all ((Json.render v ++ [nlChar]).length + 1)).1 v [nlChar]
    hfuel (notDigitStart_cons (by decide) _)
  simp only [List.length_append, List.length_cons, List.length_nil] at h
  simp +decide [jsonParse, h, skipWs]

/-- Whether a byte is a UTF-8 continuation byte. -/
def isCont (b : Nat) : Bool := 128 ≤ b && b < 192

/-- UTF-8 encoding of one character, as Rust `String` stores it. -/
def utf8EncodeChar (c : Char) : List Nat :=
  let n := c.toNat
  if n < 128 then [n]
  else if n < 2048 then [192 + n / 64, 128 + n % 64]
  else if n < 65536 then [224 + n / 4096, 128 + (n / 64) % 64, 128 + n % 64]
  else [240 + n / 262144, 128 + (n / 4096) % 64, 128 + (n / 64) % 64, 128 + n % 64]

/-- UTF-8 encoding of a character sequence into bytes. -/
def utf8Encode (cs : List Char) : List Nat := cs.flatMap utf8EncodeChar

mutual

/-- Strict UTF-8 decoding, accepting exactly what Rust `String::from_utf8`
accepts: canonical (shortest-form) sequences of valid scalar values. -/
def utf8Decode : List Nat → Option (List Char)
  | [] => some []
  | b :: bs =>
    if b < 128 then (utf8Decode bs).map (fun cs => Char.ofNat b :: cs)
    else if b < 192 then none
    else if b < 224 then utf8Dec2 b bs
    else if b < 240 then utf8Dec3 b bs
    else if b < 248 then utf8Dec4 b bs
    else none

/-- Decode the continuation of a two-byte UTF-8 sequence. -/
def utf8Dec2 : Nat → List Nat → Option (List Char)
  | b, b1 :: bs1 =>
    if isCont b1 then
      let n := (b - 192) * 64 + (b1 - 128)
      if 128 ≤ n then (utf8Decode bs1).map (fun cs => Char.ofNat n :: cs) else none
    else none
  | _, [] => none

/-- Decode the continuation of a three-byte UTF-8 sequence. -/
def utf8Dec3 : Nat → List Nat → Option (List Char)
  | b, b1 :: b2 :: bs1 =>
    if isCont b1 && isCont b2 then
      let n := (b - 224) * 4096 + (b1 - 128) * 64 + (b2 - 128)
      if 2048 ≤ n ∧ (n < 55296 ∨ 57344 ≤ n) then
        (utf8Decode bs1).map (fun cs => Char.ofNat n :: cs)
      else none
    else none
  | _, _ => none

/-- Decode the continuation of a four-byte UTF-8 sequence. -/
def utf8Dec4 : Nat → List Nat → Option (List Char)
  | b, b1 :: b2 :: b3 :: bs1 =>
    if isCont b1 && isCont b2 && isCont b3 then
      let n := (b - 240) * 262144 + (b1 - 128) * 4096 + (b2 - 128) * 64 + (b3 - 128)
      if 65536 ≤ n ∧ n < 1114112 then
        (utf8Decode bs1).map (fun cs => Char.ofNat n :: cs)
      else none
    else none
  | _, _ => none

end

theorem char_ofNat_eq {c : Char} {n : Nat} (h : c.toNat = n) : Char.ofNat n = c := by
  subst h
  exact Char.ofNat_toNat c

theorem utf8Decode_encodeChar (c : Char) (bs : List Nat) :
    utf8Decode (utf8EncodeChar c ++ bs) = (utf8Decode bs).map (fun cs => c :: cs) := by
  have hval := char_valid_ranges c
  by_cases h1 : c.toNat < 128
  · simp only [utf8EncodeChar, if_pos h1, List.cons_append, List.nil_append]
    rw [utf8Decode]
    simp [h1, Char.ofNat_toNat]
  · by_cases h2 : c.toNat < 2048
    · simp only [utf8EncodeChar, if_neg h1, if_pos h2, List.cons_append, List.nil_append]
      have k1 : ¬ (192 + c.toNat / 64 < 128) := by omega
      have k2 : ¬ (192 + c.toNat / 64 < 192) := by omega
      have k3 : 192 + c.toNat / 64 < 224 := by omega
      have kc : isCont (128 + c.toNat % 64) = true := by simp [isCont]; omega
      rw [utf8Decode]
      simp only [if_neg k1, if_neg k2, if_pos k3, utf8Dec2, kc, if_true, ite_true]
      rw [if_pos (by omega), char_ofNat_eq (show c.toNat = _ by omega)]
    · by_cases h3 : c.toNat < 65536
      · simp only [utf8EncodeChar, if_neg h1, if_neg h2, if_pos h3, List.cons_append,
          List.nil_append]
        have k1 : ¬ (224 + c.toNat / 4096 < 128) := by omega
        have k2 : ¬ (224 + c.toNat / 4096 < 192) := by omega
        have k3 : ¬ (224 + c.toNat / 4096 < 224) := by omega
        have k4 : 224 + c.toNat / 4096 < 240 := by omega
        have kc1 : isCont (128 + c.toNat / 64 % 64) = true := by simp [isCont]; omega
        have kc2 : isCont (128 + c.toNat % 64) = true := by simp [isCont]; omega
        rw [utf8Decode]
        simp only [if_neg k1, if_neg k2, if_neg k3, if_pos k4, utf8Dec3, kc1, kc2,
          Bool.and_self, if_true, ite_true]
        rw [if_pos (by omega), char_ofNat_eq (show c.toNat = _ by omega)]
      · simp only [utf8EncodeChar, if_neg h1, if_neg h2, if_neg h3, List.cons_append,
          List.nil_append]
        have k1 : ¬ (240 + c.toNat / 262144 < 128) := by omega
        have k2 : ¬ (240 + c.toNat / 262144 < 192) := by omega
        have k3 : ¬ (240 + c.toNat / 262144 < 224) := by omega
        have k4 : ¬ (240 + c.toNat / 262144 < 240) := by omega
        have k5 : 240 + c.toNat / 262144 < 248 := by omega
        have kc1 : isCont (128 + c.toNat / 4096 % 64) = true := by simp [isCont]; omega
        have kc2 : isCont (128 + c.toNat / 64 % 64) = true := by simp [isCont]; omega
        have kc3 : isCont (128 + c.toNat % 64) = true := by simp [isCont]; omega
        rw [utf8Decode]
        simp only [if_neg k1, if_neg k2, if_neg k3, if_neg k4, if_pos k5, utf8Dec4,
          kc1, kc2, kc3, Bool.and_self, if_true, ite_true]
        rw [if_pos (by omega), char_ofNat_eq (show c.toNat = _ by omega)]

theorem utf8Decode_encode (cs : List Char) : utf8Decode (utf8Encode cs) = some cs := by
  induction cs with
  | nil => rfl
  | cons c cs ih =>
    have : utf8Encode (c :: cs) = utf8EncodeChar c ++ utf8Encode cs := by
      simp [utf8Encode]
    rw [this, utf8Decode_encodeChar, ih]
    rfl

theorem escapeChar_not_nl (c : Char) : ∀ d ∈ escapeChar c, d.toNat ≠ 10 := by
  intro d hd
  by_cases h1 : c = quoteChar
  · subst h1
    have he : escapeChar quoteChar = [backslashChar, quoteChar] := by decide
    rw [he] at hd
    simp at hd
    rcases hd with hd | hd <;> subst hd <;> decide
  · by_cases h2 : c = backslashChar
    · subst h2
      have he : escapeChar backslashChar = [backslashChar, backslashChar] := by decide
      rw [he] at hd
      simp at hd
      subst hd
      decide
    · by_cases h3 : c.toNat = 8
      · simp [escapeChar, h1, h2, h3] at hd
        rcases hd with hd | hd <;> subst hd <;> decide
      · by_cases h4 : c.toNat = 9
        · simp [escapeChar, h1, h2, h3, h4] at hd
          rcases hd with hd | hd <;> subst hd <;> decide
        · by_cases h5 : c.toNat = 10
          · simp [escapeChar, h1, h2, h3, h4, h5] at hd
            rcases hd with hd | hd <;> subst hd <;> decide
          · by_cases h6 : c.toNat = 12
            · simp [escapeChar, h1, h2, h3, h4, h5, h6] at hd
              rcases hd with hd | hd <;> subst hd <;> decide
            · by_cases h7 : c.toNat = 13
              · simp [escapeChar, h1, h2, h3, h4, h5, h6, h7] at hd
                rcases hd with hd | hd <;> subst hd <;> decide
              · by_cases h8 : c.toNat < 32
                · have he : escapeChar c = [backslashChar, 'u', '0', '0',
                      hexDigitChar (c.toNat / 16), hexDigitChar (c.toNat % 16)] := by
                    simp [escapeChar, h1, h2, h3, h4, h5, h6, h7, h8]
                  have hx : ∀ m : Nat, m < 16 → (hexDigitChar m).toNat ≠ 10 := by
                    intro m hm
                    interval_cases m <;> decide
                  rw [he] at hd
                  simp only [List.mem_cons, List.not_mem_nil, or_false] at hd
                  rcases hd with hd | hd | hd | hd | hd | hd
                  · subst hd; decide
                  · subst hd; decide
                  · subst hd; decide
                  · subst hd; decide
                  · subst hd; exact hx _ (by omega)
                  · subst hd; exact hx _ (by omega)
                · simp [escapeChar, h1, h2, h3, h4, h5, h6, h7, h8] at hd
                  subst hd
                  omega

theorem natToDigits_not_nl (n : Nat) : ∀ c ∈ natToDigits n, c.toNat ≠ 10 := by
  intro c hc
  have := isDigit_bounds (natToDigits_all_digits n c hc)
  omega

theorem render_not_nl_all : ∀ b : Nat,
    (∀ v : Json, sizeOf v ≤ b → ∀ c ∈ Json.render v, c.toNat ≠ 10)
    ∧ (∀ xs : List Json, sizeOf xs ≤ b → ∀ c ∈ renderItems xs, c.toNat ≠ 10)
    ∧ (∀ fs : List (String × Json), sizeOf fs ≤ b →
        ∀ c ∈ renderFields fs, c.toNat ≠ 10) := by
  have hstr : ∀ s : String, ∀ c ∈ renderString s, c.toNat ≠ 10 := by
    intro s c hc
    simp [renderString, escapeList] at hc
    rcases hc with hc | hc | hc
    · subst hc; decide
    · obtain ⟨d, -, hd⟩ := hc
      exact escapeChar_not_nl d c hd
    · subst hc; decide
  intro b
  induction b with
  | zero =>
    refine ⟨fun v h => absurd h (by have := json_sizeOf_pos v; omega),
      fun xs h => absurd h (by cases xs <;> simp at h ⊢ <;> omega),
      fun fs h => absurd h (by cases fs <;> simp at h ⊢ <;> omega)⟩
  | succ b ih =>
    obtain ⟨ihV, ihI, ihF⟩ := ih
    refine ⟨?_, ?_, ?_⟩
    · intro v hsz c hc
      cases v with
      | null =>
        rw [show Json.render Json.null = ['n', 'u', 'l', 'l'] from rfl] at hc
        fin_cases hc <;> decide
      | bool bb =>
        cases bb
        · rw [show Json.render (Json.bool false) = ['f', 'a', 'l', 's', 'e'] from rfl] at hc
          fin_cases hc <;> decide
        · rw [show Json.render (Json.bool true) = ['t', 'r', 'u', 'e'] from rfl] at hc
          fin_cases hc <;> decide
      | num m =>
        simp [Json.render, intToChars] at hc
        by_cases hm : m < 0
        · simp [hm] at hc
          rcases hc with hc | hc
          · subst hc; decide
          · exact natToDigits_not_nl _ c hc
        · simp [hm] at hc
          exact natToDigits_not_nl _ c hc
      | str s => exact hstr s c hc
      | arr items =>
        have hsz2 : sizeOf items ≤ b := by simp at hsz; omega
        simp [Json.render] at hc
        rcases hc with hc | hc | hc
        · subst hc; decide
        · exact ihI items hsz2 c hc
        · subst hc; decide
      | obj fields =>
        have hsz2 : sizeOf fields ≤ b := by simp at hsz; omega
        simp [Json.render] at hc
        rcases hc with hc | hc | hc
        · subst hc; decide
        · exact ihF fields hsz2 c hc
        · subst hc; decide
    · intro xs hsz c hc
      cases xs with
      | nil => simp [renderItems] at hc
      | cons x rest =>
        have hszx : sizeOf x ≤ b := by simp at hsz; omega
        have hszr : sizeOf rest ≤ b := by
          simp at hsz
          have := json_sizeOf_pos x
          omega
        cases rest with
        | nil => exact ihV x hszx c (by simpa [renderItems] using hc)
        | cons y ys =>
          simp [renderItems] at hc
          rcases hc with hc | hc | hc
          · exact ihV x hszx c hc
          · subst hc; decide
          · exact ihI (y :: ys) hszr c (by simpa [renderItems] using hc)
    · intro fs hsz c hc
      cases fs with
      | nil => simp [renderFields] at hc
      | cons kv rest =>
        rcases kv with ⟨k, v⟩
        have hszv : sizeOf v ≤ b := by simp at hsz; omega
        have hszr : sizeOf rest ≤ b := by
          simp at hsz
          have := json_sizeOf_pos v
          omega
        cases rest with
        | nil =>
          simp [renderFields] at hc
          rcases hc with hc | hc | hc
          · exact hstr k c hc
          · subst hc; decide
          · exact ihV v hszv c hc
        | cons e fs2 =>
          simp [renderFields] at hc
          rcases hc with hc | hc | hc | hc
          · exact hstr k c hc
          · subst hc; decide
          · exact ihV v hszv c hc
          · rcases hc with hc | hc
            · subst hc; decide
            · exact ihF (e :: fs2) hszr c (by simpa [renderFields] using hc)

/-- Split a byte stream into the frames delivered by successive
`read_until(b'\n')` calls on `ByteTransport::poll_next`: each frame includes
its terminating newline byte; a final unterminated chunk is delivered as a
frame of its own; the stream ends (the reader returns 0 bytes) when the
input is exhausted. -/
def splitFrames : List Nat → List (List Nat)
  | [] => []
  | b :: bs =>
    if b = 10 then [10] :: splitFrames bs
    else
      match splitFrames bs with
      | [] => [[b]]
      | f :: fs => (b :: f) :: fs

theorem splitFrames_nil_iff (bs : List Nat) : splitFrames bs = [] ↔ bs = [] := by
  cases bs with
  | nil => simp [splitFrames]
  | cons b bs =>
    simp only [splitFrames]
    by_cases h : b = 10
    · simp [h]
    · simp only [h, if_false]
      rcases hs : splitFrames bs with _ | ⟨f, fs⟩ <;> simp

theorem splitFrames_newline_split (A : List Nat) (rest : List Nat) (hA : ¬ 10 ∈ A) :
    splitFrames (A ++ 10 :: rest) = (A ++ [10]) :: splitFrames rest := by
  induction A with
  | nil => simp [splitFrames]
  | cons a A ih =>
    have ha : a ≠ 10 := by intro h; exact hA (by simp [h])
    have hA2 : ¬ 10 ∈ A := fun h => hA (by simp [h])
    simp only [List.cons_append, splitFrames, ha, if_false]
    rw [show List.append A (10 :: rest) = A ++ 10 :: rest from rfl, ih hA2]

theorem utf8EncodeChar_not_nl {c : Char} (hc : c.toNat ≠ 10) :
    ¬ 10 ∈ utf8EncodeChar c := by
  intro hmem
  rw [utf8EncodeChar] at hmem
  by_cases h1 : c.toNat < 128
  · simp [h1] at hmem
    exact hc hmem.symm
  · by_cases h2 : c.toNat < 2048
    · simp [h1, h2] at hmem
      omega
    · by_cases h3 : c.toNat < 65536
      · simp [h1, h2, h3] at hmem
        omega
      · simp [h1, h2, h3] at hmem
        omega

theorem utf8Encode_not_nl {cs : List Char} (h : ∀ c ∈ cs, c.toNat ≠ 10) :
    ¬ 10 ∈ utf8Encode cs := by
  intro hmem
  simp only [utf8Encode, List.mem_flatMap] at hmem
  obtain ⟨c, hcs, hb⟩ := hmem
  exact utf8EncodeChar_not_nl (h c hcs) hb

theorem utf8Encode_append (xs ys : List Char) :
    utf8Encode (xs ++ ys) = utf8Encode xs ++ utf8Encode ys := by
  simp [utf8Encode]

theorem utf8Encode_nl : utf8Encode [nlChar] = [10] := by decide

/-- Embedding of `TransportError` from `mcp-server/src/errors.rs` as used by
`ByteTransport::poll_next`: the `Utf8`, `Json`, `InvalidMessage` and `Io`
variants.  The wrapped library error values (`FromUtf8Error`,
`serde_json::Error`, `std::io::Error`) are external types and are dropped;
the `InvalidMessage` reason string is kept as the code builds it. -/
inductive TransportError where
  | io : TransportError
  | utf8 : TransportError
  | json : TransportError
  | invalidMessage (reason : String) : TransportError
deriving DecidableEq

/-- Modelled from the spec: `JsonRpcRequest` lives in `mcp_core::protocol`,
which is not among the sources; spec §3 gives "a string `id`, a string
`method`, and a structured `params`". -/
structure JsonRpcRequest where
  id : String
  method : String
  params : Json

/-- Modelled from the spec: `JsonRpcNotification` (spec §3): "identical but
has no `id`". -/
structure JsonRpcNotification where
  method : String
  params : Json

/-- Embedding of `SendableMessage` from `mcp-core/src/transport.rs`: an
untagged union of a request and a notification. -/
inductive SendableMessage where
  | request (r : JsonRpcRequest) : SendableMessage
  | notification (n : JsonRpcNotification) : SendableMessage

/-- Modelled from the spec: the serde serialization of a `SendableMessage`
(spec §4.A / §6: frames are JSON-RPC 2.0 objects carrying `jsonrpc = "2.0"`;
a notification is an object without an `id`). -/
def SendableMessage.toJson : SendableMessage → Json
  | .request r => Json.obj [("jsonrpc", Json.str "2.0"), ("id", Json.str r.id),
      ("method", Json.str r.method), ("params", r.params)]
  | .notification n => Json.obj [("jsonrpc", Json.str "2.0"),
      ("method", Json.str n.method), ("params", n.params)]

/-- Serialization of a message to its wire text, as
`serde_json::to_string` produces it. -/
def encodeMessage (m : SendableMessage) : List Char := m.toJson.render

/-- Field lookup in a JSON object (first matching key). -/
def lookupField : List (String × Json) → String → Option Json
  | [], _ => none
  | (k, v) :: rest, key => if k = key then some v else lookupField rest key

/-- Project a JSON string value. -/
def Json.asString : Json → Option String
  | .str s => some s
  | _ => none

/-- Modelled from the spec: structural decode of a `JsonRpcRequest` from an
object (string `id`, string `method`, optional structured `params`). -/
def decodeRequest (fields : List (String × Json)) : Option JsonRpcRequest :=
  match (lookupField fields "id").bind Json.asString,
      (lookupField fields "method").bind Json.asString with
  | some i, some m => some ⟨i, m, (lookupField fields "params").getD Json.null⟩
  | _, _ => none

/-- Modelled from the spec: structural decode of a `JsonRpcNotification`. -/
def decodeNotification (fields : List (String × Json)) : Option JsonRpcNotification :=
  match (lookupField fields "method").bind Json.asString with
  | some m => some ⟨m, (lookupField fields "params").getD Json.null⟩
  | none => none

/-- Untagged decode of a `SendableMessage` (`serde_json::from_value`): try
the `Request` variant first, then `Notification`. -/
def decodeMessage : Json → Option SendableMessage
  | .obj fields =>
    match decodeRequest fields with
    | some r => some (.request r)
    | none => (decodeNotification fields).map .notification
  | _ => none

/-- Whether a JSON value is an object (`Value::is_object`). -/
def Json.isObj : Json → Bool
  | .obj _ => true
  | _ => false

/-- The check `obj.contains_key("jsonrpc") && obj["jsonrpc"] == "2.0"`
performed by `ByteTransport::poll_next` before structural decode. -/
def jsonrpcFieldOk : Json → Bool
  | .obj fields =>
    match lookupField fields "jsonrpc" with
    | some (Json.str s) => s = "2.0"
    | _ => false
  | _ => false

/-- Embedding of the frame-processing pipeline of
`ByteTransport::poll_next` (`mcp-server/src/lib.rs` lines 60-104) on the
bytes of one `\n`-terminated frame: UTF-8 conversion, JSON parse, the
object / `jsonrpc` pre-checks, then structural decode. -/
def processLine (buf : List Nat) : Except TransportError SendableMessage :=
  match utf8Decode buf with
  | none => .error TransportError.utf8
  | some line =>
    match jsonParse line with
    | none => .error TransportError.json
    | some value =>
      if value.isObj = false then
        .error (TransportError.invalidMessage "Message must be a JSON object")
      else if jsonrpcFieldOk value = false then
        .error (TransportError.invalidMessage "Missing or invalid jsonrpc version")
      else
        match decodeMessage value with
        | some msg => .ok msg
        | none => .error TransportError.json

/-- The lazy item sequence produced by the server byte-stream source over a
whole input: one item per frame, ending (with `Poll::Ready(None)`) when the
reader returns 0 bytes. -/
def decodeStream (bs : List Nat) : List (Except TransportError SendableMessage) :=
  (splitFrames bs).map processLine

theorem decodeMessage_toJson (m : SendableMessage) :
    decodeMessage m.toJson = some m := by
  cases m with
  | request r =>
    simp +decide [SendableMessage.toJson, decodeMessage, decodeRequest, lookupField,
      Json.asString]
  | notification n =>
    simp +decide [SendableMessage.toJson, decodeMessage, decodeRequest,
      decodeNotification, lookupField, Json.asString]

theorem jsonrpcFieldOk_toJson (m : SendableMessage) :
    jsonrpcFieldOk m.toJson = true := by
  cases m <;> simp +decide [SendableMessage.toJson, jsonrpcFieldOk, lookupField]

theorem isObj_toJson (m : SendableMessage) : (SendableMessage.toJson m).isObj = true := by
  cases m <;> rfl

theorem processLine_encode (m : SendableMessage) :
    processLine (utf8Encode (encodeMessage m ++ [nlChar])) = .ok m := by
  have hdec : utf8Decode (utf8Encode (encodeMessage m ++ [nlChar]))
      = some (encodeMessage m ++ [nlChar]) := utf8Decode_encode _
  have hparse : jsonParse (encodeMessage m ++ [nlChar]) = some m.toJson :=
    jsonParse_render_nl m.toJson
  rw [processLine, hdec]
  simp [hparse, isObj_toJson, jsonrpcFieldOk_toJson, decodeMessage_toJson]

/-- Modelled from the spec: `ToolError` lives in `mcp_core` (not among the
sources); §4.H and §7 name the `ExecutionError`, `InvalidParameters` and
not-found kinds. -/
inductive ToolError where
  | executionError (msg : String) : ToolError
  | invalidParameters (msg : String) : ToolError
  | notFound (msg : String) : ToolError
deriving DecidableEq

/-- Modelled from the spec: protocol `Content` (spec §4.H / S3: a content
entry is an object `\x7b"type":"text","text":...\x7d`; only text content
appears in this codebase). -/
inductive Content where
  | text (text : String) : Content
deriving DecidableEq

/-- Generic association-list lookup standing in for `HashMap::get` (first
match; builders push fresh entries at the front, so last insert wins). -/
def assocLookup {α : Type} : List (String × α) → String → Option α
  | [], _ => none
  | (k, v) :: rest, key => if k = key then some v else assocLookup rest key

/-- Modelled from the spec: serde decode of one `Content` from JSON. -/
def decodeContent (j : Json) : Option Content :=
  match j with
  | .obj fields =>
    match lookupField fields "type", lookupField fields "text" with
    | some (Json.str t), some (Json.str s) =>
      if t = "text" then some (Content.text s) else none
    | _, _ => none
  | _ => none

/-- Decode every element of a JSON array as a `Content`. -/
def traverseContent : List Json → Option (List Content)
  | [] => some []
  | j :: rest =>
    match decodeContent j with
    | some c => (traverseContent rest).map (fun cs => c :: cs)
    | none => none

/-- serde decode of `Vec<Content>` from a JSON value: only an array can
succeed. -/
def decodeContentList : Json → Option (List Content)
  | .arr items => traverseContent items
  | _ => none

/-- Stand-in for the text of the `serde_json::Error` produced when a value
fails to decode as `Vec<Content>` (the exact text comes from the external
serde library; only the `ExecutionError` wrapping is the code under
verification). -/
def serdeContentErrText : String := "invalid content value"

/-- Embedding of the result coercion in `MCPServer::call_tool`
(`mcp-server/src/server.rs` lines 113-123): `Number`/`String`/`Bool` become
one text content, `Null` the empty list, `Array`/`Object` are decoded as
`Vec<Content>` with a decode failure wrapped as `ExecutionError`. -/
def coerceResult (res : Json) : Except ToolError (List Content) :=
  match res with
  | .num n => .ok [Content.text (String.mk (intToChars n))]
  | .str s => .ok [Content.text s]
  | .bool b => .ok [Content.text (if b then "true" else "false")]
  | .arr _ =>
    match decodeContentList res with
    | some cs => .ok cs
    | none => .error (ToolError.executionError serdeContentErrText)
  | .null => .ok []
  | .obj _ =>
    match decodeContentList res with
    | some cs => .ok cs
    | none => .error (ToolError.executionError serdeContentErrText)

/-- Result of running Rust code that may `panic!` (here: `Option::unwrap`
on `None`). -/
inductive Panic (α : Type) where
  | ok (a : α) : Panic α
  | panicked : Panic α
deriving DecidableEq

/-- Embedding of `MCPServer` (`mcp-server/src/server.rs`): a name-indexed
tool table and a frozen context.  The context and the tool handlers are kept
abstract in `σ`; a handler is its `call` capability. -/
structure MCPServer (σ : Type) where
  name : String
  description : String
  tools : List (String × (σ → Json → Except ToolError Json))
  ctx : σ

/-- Embedding of `MCPServer::call_tool` (`mcp-server/src/server.rs` lines
106-127): `self.tools.get(tool_name).unwrap()` panics when the tool is
absent; otherwise the handler runs and its `Ok` result is coerced. -/
def MCPServer.callTool {σ : Type} (srv : MCPServer σ) (toolName : String)
    (arguments : Json) : Panic (Except ToolError (List Content)) :=
  match assocLookup srv.tools toolName with
  | none => Panic.panicked
  | some tool =>
    match tool srv.ctx arguments with
    | .error e => Panic.ok (.error e)
    | .ok res => Panic.ok (coerceResult res)

/-- Modelled from the spec: the `INTERNAL_ERROR` code of
`mcp_core::protocol` (spec §6: "`INTERNAL_ERROR` for service failures");
the standard JSON-RPC internal-error code. -/
def INTERNAL_ERROR : Int := -32603

/-- Modelled from the spec: `ErrorData` of `mcp_core::protocol`, as
constructed in `Server::run` (`code`, `message`, `data`). -/
structure ErrorData where
  code : Int
  message : String
  data : Option Json

/-- Modelled from the spec: `JsonRpcResponse` (spec §3), with the explicit
`jsonrpc` field the code sets when it builds an error response. -/
inductive JsonRpcResponse where
  | success (jsonrpc : String) (id : String) (result : Json) : JsonRpcResponse
  | error (jsonrpc : String) (id : String) (error : ErrorData) : JsonRpcResponse

/-- Embedding of one iteration of the `Server::run` loop
(`mcp-server/src/lib.rs` lines 167-217): the responses written for one item
pulled from the byte-stream source.  The service is the `tower` service
capability; its failure is its `to_string()` text. -/
def serverHandleItem
    (service : SendableMessage → Except String (Option JsonRpcResponse)) :
    Except TransportError SendableMessage → List JsonRpcResponse
  | .ok (SendableMessage.request request) =>
    match service (SendableMessage.request request) with
    | .ok (some resp) => [resp]
    | .ok none => []
    | .error msg =>
      [JsonRpcResponse.error "2.0" request.id ⟨INTERNAL_ERROR, msg, none⟩]
  | .ok (SendableMessage.notification _) => []
  | .error _ => []

/-- The whole `Server::run` loop over an input byte stream: frames are
pulled from the source until EOF and each item's responses are written in
order. -/
def serverRun (service : SendableMessage → Except String (Option JsonRpcResponse))
    (input : List Nat) : List JsonRpcResponse :=
  (decodeStream input).flatMap (serverHandleItem service)

/-- Terminal event a pending-table waiter can observe on its one-shot
channel: a delivered outcome, or channel closure when its sender is
dropped. -/
inductive PREvent (α : Type) where
  | outcome (a : α) : PREvent α
  | closed : PREvent α
deriving DecidableEq

/-- Operations on `PendingRequests`
(`mcp-client/src/transport/mod.rs` lines 100-134).  A waiter (one-shot
sender) is identified by the index of the `insert` that registered it. -/
inductive PROp (α : Type) where
  | insert (id : String) : PROp α
  | respond (id : String) (outcome : α) : PROp α
  | clear : PROp α

/-- State of the pending table together with the terminal events observed
so far: `table` maps request id to the registered slot, `events` records
each slot's terminal event in the order it happened. -/
structure PRState (α : Type) where
  table : List (String × Nat)
  events : List (Nat × PREvent α)

/-- `HashMap::get` on the id-keyed table. -/
def tblLookup : List (String × Nat) → String → Option Nat
  | [], _ => none
  | (k, s) :: rest, id => if k = id then some s else tblLookup rest id

/-- `HashMap::remove` on the id-keyed table (first match). -/
def tblRemove : List (String × Nat) → String → List (String × Nat)
  | [], _ => []
  | (k, s) :: rest, id => if k = id then rest else (k, s) :: tblRemove rest id

/-- One `PendingRequests` operation at trace position `n`: `insert`
replaces (and thereby drops, closing) any previous slot under the same id;
`respond` removes and completes the slot if present and is a no-op
otherwise; `clear` drops every slot, closing all of them. -/
def prStep {α : Type} (n : Nat) (st : PRState α) : PROp α → PRState α
  | .insert id =>
    match tblLookup st.table id with
    | some sOld =>
      ⟨(id, n) :: tblRemove st.table id, st.events ++ [(sOld, PREvent.closed)]⟩
    | none => ⟨(id, n) :: st.table, st.events⟩
  | .respond id a =>
    match tblLookup st.table id with
    | some s => ⟨tblRemove st.table id, st.events ++ [(s, PREvent.outcome a)]⟩
    | none => st
  | .clear => ⟨[], st.events ++ st.table.map (fun e => (e.2, PREvent.closed))⟩

/-- Run a suffix of the trace starting at position `n`. -/
def prRunFrom {α : Type} (n : Nat) (st : PRState α) : List (PROp α) → PRState α
  | [] => st
  | op :: rest => prRunFrom (n + 1) (prStep n st op) rest

/-- Run a whole trace from the empty table. -/
def prRun {α : Type} (ops : List (PROp α)) : PRState α := prRunFrom 0 ⟨[], []⟩ ops

/-- Table teardown (dropping the `PendingRequests` value): every remaining
slot is dropped and its waiter observes closure. -/
def prTeardown {α : Type} (st : PRState α) : PRState α :=
  ⟨[], st.events ++ st.table.map (fun e => (e.2, PREvent.closed))⟩

/-- Number of table entries holding slot `s`. -/
def vcount (s : Nat) : List (String × Nat) → Nat
  | [] => 0
  | (_, v) :: rest => (if v = s then 1 else 0) + vcount s rest

/-- Number of terminal events recorded for slot `s`. -/
def ecount {α : Type} (s : Nat) : List (Nat × PREvent α) → Nat
  | [] => 0
  | (t, _) :: rest => (if t = s then 1 else 0) + ecount s rest

/-- Whether trace position `s` is an `insert` (registers a waiter). -/
def insAtB {α : Type} (ops : List (PROp α)) (s : Nat) : Bool :=
  match ops[s]? with
  | some (PROp.insert _) => true
  | _ => false

/-- The terminal event the specification assigns to a waiter for `id`
registered just before this suffix: the outcome of the first `respond` for
its id, unless a reinsert of the same id or a `clear` (or the end of the
table's life) closes it first. -/
def expectedEv {α : Type} (id : String) : List (PROp α) → PREvent α
  | [] => PREvent.closed
  | PROp.insert id2 :: rest => if id2 = id then PREvent.closed else expectedEv id rest
  | PROp.respond id2 a :: rest => if id2 = id then PREvent.outcome a else expectedEv id rest
  | PROp.clear :: _ => PREvent.closed

theorem ecount_append {α : Type} (s : Nat) (xs ys : List (Nat × PREvent α)) :
    ecount s (xs ++ ys) = ecount s xs + ecount s ys := by
  induction xs with
  | nil => simp [ecount]
  | cons x xs ih => rcases x with ⟨t, e⟩; simp [ecount, ih]; omega

theorem ecount_map_table {α : Type} (s : Nat) (table : List (String × Nat)) :
    ecount s (table.map (fun e => (e.2, (PREvent.closed : PREvent α)))) = vcount s table := by
  induction table with
  | nil => simp [ecount, vcount]
  | cons e rest ih => rcases e with ⟨k, v⟩; simp [ecount, vcount, ih]

theorem vcount_tblRemove {table : List (String × Nat)} {id : String} {sOld : Nat}
    (h : tblLookup table id = some sOld) (s : Nat) :
    vcount s table = vcount s (tblRemove table id) + (if sOld = s then 1 else 0) := by
  induction table with
  | nil => simp [tblLookup] at h
  | cons e rest ih =>
    rcases e with ⟨k, v⟩
    by_cases hk : k = id
    · simp [tblLookup, hk] at h
      subst h
      simp [vcount, tblRemove, hk]
      omega
    · simp [tblLookup, hk] at h
      simp [vcount, tblRemove, hk, ih h]
      omega

theorem vcount_pos_of_lookup {table : List (String × Nat)} {id : String} {s : Nat}
    (h : tblLookup table id = some s) : 1 ≤ vcount s table := by
  induction table with
  | nil => simp [tblLookup] at h
  | cons e rest ih =>
    rcases e with ⟨k, v⟩
    by_cases hk : k = id
    · simp [tblLookup, hk] at h
      simp [vcount, h]
    · simp [tblLookup, hk] at h
      simp [vcount]
      have := ih h
      omega

theorem tblLookup_some_mem {table : List (String × Nat)} {id : String} {s : Nat}
    (h : tblLookup table id = some s) : (id, s) ∈ table := by
  induction table with
  | nil => simp [tblLookup] at h
  | cons e rest ih =>
    rcases e with ⟨k, v⟩
    by_cases hk : k = id
    · simp [tblLookup, hk] at h
      subst hk; subst h
      simp
    · simp [tblLookup, hk] at h
      exact List.mem_cons_of_mem _ (ih h)

theorem tblLookup_remove_other {table : List (String × Nat)} {id id2 : String}
    (hne : id ≠ id2) : tblLookup (tblRemove table id2) id = tblLookup table id := by
  induction table with
  | nil => simp [tblRemove]
  | cons e rest ih =>
    rcases e with ⟨k, v⟩
    by_cases hk : k = id2
    · subst hk
      have h2 : ¬ k = id := fun h => hne h.symm
      simp [tblRemove, tblLookup, h2]
    · by_cases hki : k = id
      · subst hki
        simp [tblRemove, tblLookup, hk]
      · simp [tblRemove, tblLookup, hk, hki, ih]

theorem insAtB_lt {α : Type} {ops : List (PROp α)} {s : Nat}
    (h : insAtB ops s = true) : s < ops.length := by
  by_contra hge
  rw [insAtB, List.getElem?_eq_none (by omega)] at h
  simp at h

theorem prRunFrom_count {α : Type} (ops : List (PROp α)) :
    ∀ (rest : List (PROp α)) (k : Nat) (st : PRState α),
      ops.drop k = rest →
      (∀ s, vcount s st.table + ecount s st.events
          = if s < k ∧ insAtB ops s = true then 1 else 0) →
      ∀ s, vcount s (prRunFrom k st rest).table
            + ecount s (prRunFrom k st rest).events
          = if s < k + rest.length ∧ insAtB ops s = true then 1 else 0 := by
  intro rest
  induction rest with
  | nil =>
    intro k st hdrop hinv s
    simpa [prRunFrom] using hinv s
  | cons op rest ih =>
    intro k st hdrop hinv
    have hlen : k < ops.length := by
      have := congrArg List.length hdrop
      simp [List.length_drop] at this
      omega
    have hk : ops[k]? = some op := by
      have h0 : (ops.drop k)[0]? = some op := by rw [hdrop]; simp
      rw [List.getElem?_drop] at h0
      simpa using h0
    have hdrop2 : ops.drop (k + 1) = rest := by
      have : (ops.drop k).drop 1 = rest := by rw [hdrop]; rfl
      rwa [List.drop_drop] at this
    have hinv2 : ∀ s, vcount s (prStep k st op).table + ecount s (prStep k st op).events
        = if s < k + 1 ∧ insAtB ops s = true then 1 else 0 := by
      intro s
      have h0 := hinv s
      cases op with
      | insert id =>
        have hIA : insAtB ops k = true := by simp [insAtB, hk]
        rcases hlk : tblLookup st.table id with _ | sOld
        · simp only [prStep, hlk, vcount]
          by_cases hins : insAtB ops s = true
          · simp [hins] at h0 ⊢
            (try split_ifs at h0 ⊢) <;> omega
          · have hks : ¬ k = s := fun h => hins (h ▸ hIA)
            simp [hins] at h0 ⊢
            (try split_ifs) <;> omega
        · have hrm := vcount_tblRemove hlk s
          simp only [prStep, hlk, vcount, ecount_append, ecount]
          by_cases hins : insAtB ops s = true
          · simp [hins] at h0 ⊢
            (try split_ifs at h0 hrm ⊢) <;> omega
          · have hks : ¬ k = s := fun h => hins (h ▸ hIA)
            simp [hins] at h0 ⊢
            (try split_ifs at hrm ⊢) <;> omega
      | respond id a =>
        have hIA : insAtB ops k = false := by simp [insAtB, hk]
        rcases hlk : tblLookup st.table id with _ | s0
        · simp only [prStep, hlk]
          by_cases hins : insAtB ops s = true
          · have hks : ¬ s = k := by
              intro h
              rw [h] at hins
              rw [hIA] at hins
              exact absurd hins (by simp)
            simp [hins] at h0 ⊢
            (try split_ifs at h0 ⊢) <;> omega
          · simp [hins] at h0 ⊢
            exact h0
        · have hrm := vcount_tblRemove hlk s
          simp only [prStep, hlk, ecount_append, ecount]
          by_cases hins : insAtB ops s = true
          · have hks : ¬ s = k := by
              intro h
              rw [h] at hins
              rw [hIA] at hins
              exact absurd hins (by simp)
            simp [hins] at h0 ⊢
            (try split_ifs at h0 hrm ⊢) <;> omega
          · simp [hins] at h0 ⊢
            (try split_ifs at hrm) <;> omega
      | clear =>
        have hIA : insAtB ops k = false := by simp [insAtB, hk]
        simp only [prStep, vcount, ecount_append, ecount_map_table]
        by_cases hins : insAtB ops s = true
        · have hks : ¬ s = k := by
            intro h
            rw [h] at hins
            rw [hIA] at hins
            exact absurd hins (by simp)
          simp [hins] at h0 ⊢
          (try split_ifs at h0 ⊢) <;> omega
        · simp [hins] at h0 ⊢
          omega
    intro s
    have hres := ih (k + 1) (prStep k st op) hdrop2 hinv2 s
    simp only [prRunFrom, List.length_cons]
    have harith : k + (rest.length + 1) = k + 1 + rest.length := by omega
    simp only [harith]
    exact hres

theorem prRun_count {α : Type} (ops : List (PROp α)) (s : Nat) :
    vcount s (prRun ops).table + ecount s (prRun ops).events
      = if insAtB ops s = true then 1 else 0 := by
  have h := prRunFrom_count ops ops 0 ⟨[], []⟩ (by simp)
    (by intro s2; simp [vcount, ecount, insAtB]) s
  simp only [Nat.zero_add] at h
  rw [prRun]
  rw [h]
  by_cases hins : insAtB ops s = true
  · have := insAtB_lt hins
    simp [hins, this]
  · simp [hins]

theorem prFinal_count {α : Type} (ops : List (PROp α)) (s : Nat) :
    ecount s (prTeardown (prRun ops)).events = if insAtB ops s = true then 1 else 0 := by
  have h := prRun_count ops s
  simp only [prTeardown, ecount_append, ecount_map_table]
  split_ifs at h ⊢ <;> omega

theorem prStep_events_mono {α : Type} (n : Nat) (st : PRState α) (op : PROp α)
    {e : Nat × PREvent α} (he : e ∈ st.events) : e ∈ (prStep n st op).events := by
  cases op with
  | insert id => rcases hlk : tblLookup st.table id with _ | s <;> simp [prStep, hlk, he]
  | respond id a => rcases hlk : tblLookup st.table id with _ | s <;> simp [prStep, hlk, he]
  | clear => simp [prStep, he]

theorem prRunFrom_events_mono {α : Type} (rest : List (PROp α)) :
    ∀ (k : Nat) (st : PRState α) (e : Nat × PREvent α),
      e ∈ st.events → e ∈ (prRunFrom k st rest).events := by
  induction rest with
  | nil => intro k st e he; simpa [prRunFrom] using he
  | cons op rest ih =>
    intro k st e he
    exact ih (k + 1) (prStep k st op) e (prStep_events_mono k st op he)

theorem prTeardown_events_mono {α : Type} {st : PRState α} {e : Nat × PREvent α}
    (he : e ∈ st.events) : e ∈ (prTeardown st).events := by
  simp [prTeardown, he]

theorem pr_tracked {α : Type} : ∀ (rest : List (PROp α)) (k : Nat) (st : PRState α)
    (id : String) (s : Nat), tblLookup st.table id = some s →
    (s, expectedEv id rest) ∈ (prTeardown (prRunFrom k st rest)).events := by
  intro rest
  induction rest with
  | nil =>
    intro k st id s hlk
    simp [prRunFrom, prTeardown, expectedEv, List.mem_map]
    exact Or.inr ⟨id, tblLookup_some_mem hlk⟩
  | cons op rest ih =>
    intro k st id s hlk
    simp only [prRunFrom]
    cases op with
    | insert id2 =>
      by_cases hid : id2 = id
      · subst hid
        have hmem : (s, PREvent.closed) ∈ (prStep k st (PROp.insert id2)).events := by
          simp [prStep, hlk]
        have h2 := prTeardown_events_mono
          (prRunFrom_events_mono rest (k + 1) _ _ hmem)
        simpa [expectedEv] using h2
      · have hne : id ≠ id2 := fun h => hid h.symm
        have hlk2 : tblLookup (prStep k st (PROp.insert id2)).table id = some s := by
          rcases hlk3 : tblLookup st.table id2 with _ | sOld
          · simp [prStep, hlk3, tblLookup, hne, hlk]
            intro h
            exact absurd h hid
          · simp only [prStep, hlk3, tblLookup]
            rw [if_neg hid, tblLookup_remove_other hne]
            exact hlk
        have h2 := ih (k + 1) _ id s hlk2
        simpa [expectedEv, hid] using h2
    | respond id2 a =>
      by_cases hid : id2 = id
      · subst hid
        have hmem : (s, PREvent.outcome a) ∈ (prStep k st (PROp.respond id2 a)).events := by
          simp [prStep, hlk]
        have h2 := prTeardown_events_mono
          (prRunFrom_events_mono rest (k + 1) _ _ hmem)
        simpa [expectedEv] using h2
      · have hne : id ≠ id2 := fun h => hid h.symm
        have hlk2 : tblLookup (prStep k st (PROp.respond id2 a)).table id = some s := by
          rcases hlk3 : tblLookup st.table id2 with _ | s0
          · simp [prStep, hlk3, hlk]
          · simp [prStep, hlk3]
            rw [tblLookup_remove_other hne]
            exact hlk
        have h2 := ih (k + 1) _ id s hlk2
        simpa [expectedEv, hid] using h2
    | clear =>
      have hmem : (s, PREvent.closed) ∈ (prStep k st PROp.clear).events := by
        simp [prStep, List.mem_map]
        exact Or.inr ⟨id, tblLookup_some_mem hlk⟩
      have h2 := prTeardown_events_mono
        (prRunFrom_events_mono rest (k + 1) _ _ hmem)
      simpa [expectedEv] using h2

theorem prRunFrom_append {α : Type} (l1 : List (PROp α)) :
    ∀ (l2 : List (PROp α)) (k : Nat) (st : PRState α),
      prRunFrom k st (l1 ++ l2) = prRunFrom (k + l1.length) (prRunFrom k st l1) l2 := by
  induction l1 with
  | nil => intro l2 k st; simp [prRunFrom]
  | cons op l1 ih =>
    intro l2 k st
    simp only [List.cons_append, prRunFrom, List.length_cons]
    rw [show l1.append l2 = l1 ++ l2 from rfl, ih]
    congr 1
    omega

/-- Embedding of the client `Error` enum
(`mcp-client/src/transport/mod.rs` lines 11-36).  Library payloads
(`std::io::Error`, `serde_json::Error`) are dropped; message strings are
kept. -/
inductive ClientError where
  | io : ClientError
  | notConnected : ClientError
  | channelClosed : ClientError
  | serialization : ClientError
  | unsupportedMessage : ClientError
  | stdioProcessError (msg : String) : ClientError
  | sseConnection (msg : String) : ClientError
  | httpError (status : Nat) (message : String) : ClientError
deriving DecidableEq

/-- Embedding of `String::from_utf8_lossy(..).to_string()`: on valid UTF-8
(the case `StdioActor::run` feeds it in the scenarios the spec describes)
it is the exact decoded text; the external library's replacement of invalid
sequences is approximated byte-wise with U+FFFD. -/
def utf8DecodeLossy (bs : List Nat) : List Char :=
  match utf8Decode bs with
  | some cs => cs
  | none => bs.map (fun b => if b < 128 then Char.ofNat b else Char.ofNat 65533)

/-- Embedding of the cleanup tail of `StdioActor::run`
(`mcp-client/src/transport/stdio.rs` lines 61-78), entered once the
supervisor's race observes reader, writer or child termination: read the
remaining stderr to EOF; if that read succeeds, send (best-effort) a
`StdioProcessError` carrying the stderr text, or "Process ended
unexpectedly" when stderr was empty; then clear the pending table.  The
stderr read result is `none` for a read error (in which case nothing is
sent), `some bytes` otherwise; the returned option is the message offered
on the failure channel. -/
def actorCleanup {α : Type} (stderrRead : Option (List Nat)) (st : PRState α) :
    Option ClientError × PRState α :=
  match stderrRead with
  | some bytes =>
    (some (ClientError.stdioProcessError
        (if 0 < bytes.length then String.mk (utf8DecodeLossy bytes)
         else "Process ended unexpectedly")),
     prTeardown st)
  | none => (none, prTeardown st)

/-- Outcome of `mpsc::Sender::send`: delivered, or the channel is closed
because the receiving actor is gone. -/
inductive EnqueueResult where
  | delivered : EnqueueResult
  | closed : EnqueueResult
deriving DecidableEq

/-- Outcome of awaiting the one-shot response slot of a request: the slot
resolves with the value the actor sent, or the sender was dropped
(`RecvError`), observed as cancellation. -/
inductive SlotOutcome where
  | resolved (r : Except ClientError JsonRpcResponse) : SlotOutcome
  | cancelled : SlotOutcome

/-- The asynchronous environment one `send` call runs in: what the bounded
queue does, what the one-shot slot yields, and whether the failure channel
holds an error at completion time. -/
structure SendEnv where
  enqueue : EnqueueResult
  slot : SlotOutcome
  failure : Option ClientError

/-- Embedding of `send_message` (`mcp-client/src/transport/mod.rs` lines
74-97): a request enqueues an envelope with a one-shot slot and awaits it;
a notification enqueues without a slot and yields no response. -/
def sendMessageModel (env : SendEnv) (msg : SendableMessage) :
    Except ClientError (Option JsonRpcResponse) :=
  match msg with
  | .request _ =>
    match env.enqueue with
    | .closed => .error ClientError.channelClosed
    | .delivered =>
      match env.slot with
      | .cancelled => .error ClientError.channelClosed
      | .resolved (.error e) => .error e
      | .resolved (.ok resp) => .ok (some resp)
  | .notification _ =>
    match env.enqueue with
    | .closed => .error ClientError.channelClosed
    | .delivered => .ok none

/-- Embedding of `StdioTransportHandle::send` plus `check_for_errors`
(`mcp-client/src/transport/stdio.rs` lines 174-194): run `send_message`,
then non-blockingly poll the failure channel; a pending failure is
returned instead of the send's own result. -/
def handleSend (env : SendEnv) (msg : SendableMessage) :
    Except ClientError (Option JsonRpcResponse) :=
  match env.failure with
  | some e => .error e
  | none => sendMessageModel env msg

/-- Runtime type tags: a Rust type is a base type or an `Inject<T>`
wrapping.  Equality of tags models `TypeId` equality. -/
inductive RTy where
  | base (tag : Nat) : RTy
  | inject (t : RTy) : RTy
deriving DecidableEq

/-- A shared reference-counted handle (`Arc<T>`): cloning preserves the
referent identity `refId`. -/
structure ArcRef (α : Type) where
  refId : Nat
  value : α

/-- `Arc::clone`: same referent. -/
def ArcRef.clone {α : Type} (a : ArcRef α) : ArcRef α := ⟨a.refId, a.value⟩

/-- Embedding of `Inject<T>` (`mcp-server/src/context.rs` lines 60-81): a
newtype over `Arc<T>`. -/
structure Inject (α : Type) where
  arc : ArcRef α

/-- `impl Clone for Inject<T>`: `Inject(Arc::clone(&self.0))`. -/
def Inject.clone {α : Type} (i : Inject α) : Inject α := ⟨i.arc.clone⟩

/-- Denotation of a type tag over a family `B` of base types. -/
def RTy.denote (B : Nat → Type) : RTy → Type
  | .base n => B n
  | .inject t => Inject (t.denote B)

/-- Embedding of `Context` (`mcp-server/src/context.rs` lines 12-30): a map
from `TypeId` to erased values; an entry is a tag together with a value of
that tag's type (the invariant `downcast_ref` relies on). -/
structure Context (B : Nat → Type) where
  map : List ((t : RTy) × RTy.denote B t)

/-- `Context::insert`: keyed by `TypeId::of::<Inject<T>>()`, storing the
`Inject<T>` value (line 20-22).  `HashMap::insert` replaces, so the most
recent entry wins the lookup. -/
def Context.insert {B : Nat → Type} (ctx : Context B) {t : RTy}
    (v : Inject (RTy.denote B t)) : Context B :=
  ⟨⟨RTy.inject t, v⟩ :: ctx.map⟩

/-- Lookup by tag with `downcast_ref`: the first entry under the requested
tag, returned at the requested type. -/
def ctxFind {B : Nat → Type} (t : RTy) :
    List ((u : RTy) × RTy.denote B u) → Option (RTy.denote B t)
  | [] => none
  | e :: rest => if h : e.1 = t then some (h ▸ e.2) else ctxFind t rest

/-- `Context::get::<T>` (lines 25-29). -/
def Context.get {B : Nat → Type} (ctx : Context B) (t : RTy) :
    Option (RTy.denote B t) :=
  ctxFind t ctx.map

/-- Embedding of `impl FromContext for Inject<T>` (lines 113-121): look up
`Inject<T>`; clone it on success; `panic!` when absent. -/
def fromContext {B : Nat → Type} (t : RTy) (ctx : Context B) :
    Panic (Inject (RTy.denote B t)) :=
  match ctx.get (RTy.inject t) with
  | some obj => Panic.ok obj.clone
  | none => Panic.panicked

/-- Embedding of `StdioTransport` (`mcp-client/src/transport/stdio.rs`
lines 196-200). -/
structure StdioTransport where
  command : String
  args : List String
  env : List (String × String)

/-- The child-process configuration `spawn_process` builds (lines
226-243). -/
structure SpawnConfig where
  command : String
  args : List String
  env : List (String × String)
  stdinPiped : Bool
  stdoutPiped : Bool
  stderrPiped : Bool
  killOnDrop : Bool

/-- Embedding of `StdioTransport::spawn_process` configuration: all three
pipes captured and `kill_on_drop(true)` set. -/
def StdioTransport.spawnConfig (t : StdioTransport) : SpawnConfig :=
  { command := t.command, args := t.args, env := t.env,
    stdinPiped := true, stdoutPiped := true, stderrPiped := true,
    killOnDrop := true }

/-- Observable world state for the transport lifecycle claims. -/
structure ProcessWorld where
  childAlive : Bool
  actorRunning : Bool
deriving DecidableEq

/-- Embedding of `StdioTransport::close` (lines 297-299): the body is
`Ok(())`; no signal, kill, wait or actor shutdown happens, so the world is
returned unchanged. -/
def StdioTransport.close (_t : StdioTransport) (w : ProcessWorld) :
    Except ClientError Unit × ProcessWorld :=
  (Except.ok (), w)

/-- tokio semantics of dropping the actor that owns the `Child`: with
`kill_on_drop` set the child is killed; the actor task ends. -/
def dropActor (cfg : SpawnConfig) (w : ProcessWorld) : ProcessWorld :=
  { childAlive := w.childAlive && !cfg.killOnDrop, actorRunning := false }

/-- C1: the claim states that a `tools/call` naming an absent tool makes
`call_tool` return a JSON-RPC method-not-found `Error` without panicking.
The code (`MCPServer::call_tool`, `src/crates/mcp-server/src/server.rs`
line 111, and likewise `src/examples/server_tool_macros/src/common.rs`
line 37) does `self.tools.get(tool_name).unwrap()`, which panics on a
missing tool before any error can be produced; no tool is invoked. -/
theorem call_tool_unknown_tool_panics {σ : Type} (srv : MCPServer σ)
    (toolName : String) (arguments : Json)
    (h : assocLookup srv.tools toolName = none) :
    srv.callTool toolName arguments = Panic.panicked := by
  simp [MCPServer.callTool, h]

theorem call_tool_unknown_tool_panics_witness :
    assocLookup ([] : List (String × (Unit → Json → Except ToolError Json)))
        "nonexistent" = none
    ∧ (MCPServer.mk "server" "demo"
        ([] : List (String × (Unit → Json → Except ToolError Json))) ()).callTool
        "nonexistent" Json.null = Panic.panicked :=
  ⟨rfl, call_tool_unknown_tool_panics _ "nonexistent" Json.null rfl⟩

/-- C2: over any finite trace of `insert` / `respond` / `clear` on an
initially empty `PendingRequests` table, followed by table teardown, each
registered waiter observes exactly one terminal event (its event count is
one, and non-waiters have none), and that event is the one the claim
describes: the outcome of the first `respond` for its id that occurs while
its entry is present, or channel closure (reinsert of its id, `clear`, or
teardown), as computed by `expectedEv` over the remainder of the trace. -/
theorem pending_requests_exactly_one_terminal_event {α : Type}
    (ops : List (PROp α)) :
    (prTeardown (prRun ops)).table = []
    ∧ (∀ s, ecount s (prTeardown (prRun ops)).events
        = if insAtB ops s = true then 1 else 0)
    ∧ (∀ s id, ops[s]? = some (PROp.insert id) →
        (s, expectedEv id (ops.drop (s + 1)))
          ∈ (prTeardown (prRun ops)).events) := by
  refine ⟨rfl, prFinal_count ops, ?_⟩
  intro s id hs
  have hlt : s < ops.length := by
    by_contra hge
    rw [List.getElem?_eq_none (by omega)] at hs
    exact absurd hs (by simp)
  have htake : ops = ops.take (s + 1) ++ ops.drop (s + 1) := (List.take_append_drop _ _).symm
  have hlen1 : (ops.take s).length = s := by simp [List.length_take]; omega
  have htake2 : ops.take (s + 1) = ops.take s ++ [PROp.insert id] := by
    rw [List.take_succ, hs]
    rfl
  have hrunsplit : prRun ops
      = prRunFrom (s + 1) (prRunFrom 0 ⟨[], []⟩ (ops.take (s + 1))) (ops.drop (s + 1)) := by
    conv_lhs => rw [prRun, htake]
    rw [prRunFrom_append]
    congr 1
    simp [List.length_take]
    omega
  have hlk : tblLookup (prRunFrom 0 ⟨[], []⟩ (ops.take (s + 1))).table id
      = some s := by
    rw [htake2, prRunFrom_append, hlen1]
    simp only [Nat.zero_add, prRunFrom]
    rcases hlk0 : tblLookup (prRunFrom 0 ⟨[], []⟩ (ops.take s)).table id with _ | sOld <;>
      simp [prStep, hlk0, tblLookup]
  rw [hrunsplit]
  exact pr_tracked (ops.drop (s + 1)) (s + 1) _ id s hlk

/-- Trace used to instantiate the pending-table claim concretely. -/
def c2TraceOps : List (PROp Nat) := [PROp.insert "a", PROp.respond "a" 42]

theorem pending_requests_exactly_one_terminal_event_witness :
    (prTeardown (prRun c2TraceOps)).table = []
    ∧ ecount 0 (prTeardown (prRun c2TraceOps)).events = 1
    ∧ (0, PREvent.outcome 42) ∈ (prTeardown (prRun c2TraceOps)).events := by
  obtain ⟨h1, h2, h3⟩ := pending_requests_exactly_one_terminal_event c2TraceOps
  refine ⟨h1, ?_, ?_⟩
  · have h := h2 0
    rwa [if_pos (by decide)] at h
  · have h := h3 0 "a" rfl
    have he : expectedEv "a" (c2TraceOps.drop (0 + 1)) = PREvent.outcome 42 := by decide
    rwa [he] at h

/-- C3: serializing any `SendableMessage` (request or notification) to
JSON, appending a newline, and decoding the resulting bytes through the
server byte-stream source yields exactly one item, `Ok` of a message
structurally equal to the original. -/
theorem sendable_message_encode_decode_roundtrip (m : SendableMessage) :
    decodeStream (utf8Encode (encodeMessage m ++ [nlChar])) = [Except.ok m] := by
  have hchars : ∀ c ∈ encodeMessage m, c.toNat ≠ 10 :=
    (render_not_nl_all (sizeOf m.toJson)).1 m.toJson le_rfl
  have h10 : ¬ 10 ∈ utf8Encode (encodeMessage m) := utf8Encode_not_nl hchars
  have henc : utf8Encode (encodeMessage m ++ [nlChar])
      = utf8Encode (encodeMessage m) ++ [10] := by
    rw [utf8Encode_append, utf8Encode_nl]
  have hsplit : splitFrames (utf8Encode (encodeMessage m) ++ 10 :: [])
      = (utf8Encode (encodeMessage m) ++ [10]) :: splitFrames [] :=
    splitFrames_newline_split _ _ h10
  rw [decodeStream, henc, hsplit]
  simp only [splitFrames, List.map_cons, List.map_nil]
  rw [show utf8Encode (encodeMessage m) ++ [10]
      = utf8Encode (encodeMessage m ++ [nlChar]) from henc.symm]
  rw [processLine_encode]

/-- C4: when a dispatched tool handler returns `Ok v`, `call_tool` coerces
`v` into the content sequence: a JSON number, string or bool becomes a
single text content carrying the value's string form; `Null` becomes the
empty sequence; an array or object is decoded as an array of `Content`
structures, a decode failure becoming `ToolError::ExecutionError`. -/
theorem call_tool_result_coercion {σ : Type} (srv : MCPServer σ)
    (toolName : String) (args : Json) (v : Json)
    (handler : σ → Json → Except ToolError Json)
    (hlook : assocLookup srv.tools toolName = some handler)
    (hok : handler srv.ctx args = .ok v) :
    srv.callTool toolName args = Panic.ok (coerceResult v)
    ∧ (∀ n : Int, coerceResult (Json.num n)
        = .ok [Content.text (String.mk (intToChars n))])
    ∧ (∀ s, coerceResult (Json.str s) = .ok [Content.text s])
    ∧ (∀ b, coerceResult (Json.bool b)
        = .ok [Content.text (if b then "true" else "false")])
    ∧ coerceResult Json.null = .ok []
    ∧ (∀ items cs, decodeContentList (Json.arr items) = some cs →
        coerceResult (Json.arr items) = .ok cs)
    ∧ (∀ items, decodeContentList (Json.arr items) = none →
        coerceResult (Json.arr items)
          = .error (ToolError.executionError serdeContentErrText))
    ∧ (∀ fields, decodeContentList (Json.obj fields) = none →
        coerceResult (Json.obj fields)
          = .error (ToolError.executionError serdeContentErrText)) := by
  refine ⟨by simp [MCPServer.callTool, hlook, hok], fun n => rfl, fun s => rfl,
    fun b => rfl, rfl, ?_, ?_, ?_⟩
  · intro items cs h
    simp [coerceResult, h]
  · intro items h
    simp [coerceResult, h]
  · intro fields h
    simp [coerceResult, h]

/-- Tool handler used to instantiate the coercion claim concretely. -/
def c4DemoHandler : Unit → Json → Except ToolError Json :=
  fun _ _ => .ok (Json.num 42)

/-- Server used to instantiate the coercion claim concretely. -/
def c4DemoServer : MCPServer Unit :=
  MCPServer.mk "server" "demo" [("calculator", c4DemoHandler)] ()

theorem call_tool_result_coercion_witness :
    c4DemoServer.callTool "calculator" Json.null
      = Panic.ok (.ok [Content.text "42"])
    ∧ coerceResult (Json.str "hi") = .ok [Content.text "hi"]
    ∧ coerceResult Json.null = .ok []
    ∧ coerceResult (Json.obj []) = .error (ToolError.executionError serdeContentErrText) := by
  obtain ⟨h1, h2, h3, h4, h5, h6, h7, h8⟩ :=
    call_tool_result_coercion c4DemoServer "calculator" Json.null (Json.num 42)
      c4DemoHandler (by rfl) (by rfl)
  refine ⟨?_, h3 "hi", h5, h8 [] rfl⟩
  rw [h1]
  simp +decide [coerceResult, intToChars, natToDigits, digitChar]

/-- C6: when the service call for a pulled `Request` fails, the server
loop writes back exactly one JSON-RPC `Error` response with code
`INTERNAL_ERROR`, the failure's text as message, and the original request
id; when the service succeeds with a response, that response is written
unchanged. -/
theorem server_loop_error_response
    (service : SendableMessage → Except String (Option JsonRpcResponse))
    (request : JsonRpcRequest) :
    (∀ msg, service (SendableMessage.request request) = .error msg →
        serverHandleItem service (.ok (SendableMessage.request request))
          = [JsonRpcResponse.error "2.0" request.id
              ⟨INTERNAL_ERROR, msg, none⟩])
    ∧ (∀ resp, service (SendableMessage.request request) = .ok (some resp) →
        serverHandleItem service (.ok (SendableMessage.request request)) = [resp])
    ∧ (service (SendableMessage.request request) = .ok none →
        serverHandleItem service (.ok (SendableMessage.request request)) = []) := by
  refine ⟨?_, ?_, ?_⟩
  · intro msg h
    simp [serverHandleItem, h]
  · intro resp h
    simp [serverHandleItem, h]
  · intro h
    simp [serverHandleItem, h]

theorem server_loop_error_response_witness :
    serverHandleItem (fun _ => .error "boom")
        (.ok (SendableMessage.request ⟨"7", "tools/call", Json.null⟩))
      = [JsonRpcResponse.error "2.0" "7" ⟨INTERNAL_ERROR, "boom", none⟩]
    ∧ serverHandleItem
        (fun _ => .ok (some (JsonRpcResponse.success "2.0" "7" Json.null)))
        (.ok (SendableMessage.request ⟨"7", "tools/call", Json.null⟩))
      = [JsonRpcResponse.success "2.0" "7" Json.null] :=
  ⟨(server_loop_error_response (fun _ => .error "boom")
      ⟨"7", "tools/call", Json.null⟩).1 "boom" rfl,
   (server_loop_error_response
      (fun _ => .ok (some (JsonRpcResponse.success "2.0" "7" Json.null)))
      ⟨"7", "tools/call", Json.null⟩).2.1
      (JsonRpcResponse.success "2.0" "7" Json.null) rfl⟩

/-- C5: a `\n`-terminated frame yields exactly one item from the byte
stream source, classified in order as `Utf8` for invalid UTF-8, `Json` for
unparseable text, `InvalidMessage` (with its reason string) for a non
object or a missing/wrong `jsonrpc` field, `Json` for a failed structural
decode, and `Ok` otherwise; and the item sequence ends exactly when the
reader has no bytes left (EOF, read of 0 bytes). -/
theorem byte_transport_item_classification (frame : List Nat)
    (hnl : ¬ 10 ∈ frame) :
    decodeStream (frame ++ [10]) = [processLine (frame ++ [10])]
    ∧ (∀ bs, decodeStream bs = [] ↔ bs = [])
    ∧ (∀ buf, utf8Decode buf = none →
        processLine buf = .error TransportError.utf8)
    ∧ (∀ buf line, utf8Decode buf = some line → jsonParse line = none →
        processLine buf = .error TransportError.json)
    ∧ (∀ buf line v, utf8Decode buf = some line → jsonParse line = some v →
        v.isObj = false → processLine buf
          = .error (TransportError.invalidMessage "Message must be a JSON object"))
    ∧ (∀ buf line v, utf8Decode buf = some line → jsonParse line = some v →
        v.isObj = true → jsonrpcFieldOk v = false → processLine buf
          = .error (TransportError.invalidMessage "Missing or invalid jsonrpc version"))
    ∧ (∀ buf line v, utf8Decode buf = some line → jsonParse line = some v →
        v.isObj = true → jsonrpcFieldOk v = true → decodeMessage v = none →
        processLine buf = .error TransportError.json)
    ∧ (∀ buf line v msg, utf8Decode buf = some line → jsonParse line = some v →
        v.isObj = true → jsonrpcFieldOk v = true → decodeMessage v = some msg →
        processLine buf = .ok msg) := by
  refine ⟨?_, ?_, ?_, ?_, ?_, ?_, ?_, ?_⟩
  · rw [decodeStream,
      show frame ++ [10] = frame ++ 10 :: [] from rfl,
      splitFrames_newline_split _ _ hnl]
    simp [splitFrames]
  · intro bs
    rw [decodeStream]
    constructor
    · intro h
      exact (splitFrames_nil_iff bs).1 (by simpa using h)
    · intro h
      subst h
      simp [splitFrames]
  · intro buf h
    simp [processLine, h]
  · intro buf line h1 h2
    simp [processLine, h1, h2]
  · intro buf line v h1 h2 h3
    simp [processLine, h1, h2, h3]
  · intro buf line v h1 h2 h3 h4
    simp [processLine, h1, h2, h3, h4]
  · intro buf line v h1 h2 h3 h4 h5
    simp [processLine, h1, h2, h3, h4, h5]
  · intro buf line v msg h1 h2 h3 h4 h5
    simp [processLine, h1, h2, h3, h4, h5]

theorem byte_transport_item_classification_witness :
    decodeStream ([120] ++ [10]) = [processLine ([120] ++ [10])] :=
  (byte_transport_item_classification [120] (by decide)).1

/-- C7: after the supervisor race in `StdioActor::run` observes reader,
writer or child termination, the cleanup reads stderr to EOF, offers on
the failure channel a `StdioProcessError` carrying the stderr text when
non-empty (or "Process ended unexpectedly" when empty; nothing is sent if
even the stderr read fails), and clears the pending table, so that every
outstanding waiter observes channel closure. -/
theorem stdio_actor_cleanup {α : Type} (stderrRead : Option (List Nat))
    (st : PRState α) :
    (actorCleanup stderrRead st).2.table = []
    ∧ (∀ p ∈ st.table,
        (p.2, PREvent.closed) ∈ (actorCleanup stderrRead st).2.events)
    ∧ (∀ bytes, stderrRead = some bytes → 0 < bytes.length →
        (actorCleanup stderrRead st).1 = some (ClientError.stdioProcessError
          (String.mk (utf8DecodeLossy bytes))))
    ∧ (stderrRead = some [] → (actorCleanup stderrRead st).1
        = some (ClientError.stdioProcessError "Process ended unexpectedly"))
    ∧ (stderrRead = none → (actorCleanup stderrRead st).1 = none) := by
  refine ⟨?_, ?_, ?_, ?_, ?_⟩
  · cases stderrRead <;> rfl
  · intro p hp
    have hmem : (p.2, PREvent.closed) ∈ (prTeardown st).events := by
      simp [prTeardown, List.mem_map]
      exact Or.inr ⟨p.1, by simpa using hp⟩
    cases stderrRead <;> simpa [actorCleanup] using hmem
  · intro bytes h hlen
    subst h
    simp [actorCleanup, hlen]
  · intro h
    subst h
    simp [actorCleanup]
  · intro h
    subst h
    rfl

theorem stdio_actor_cleanup_witness :
    (actorCleanup (some [98, 111, 111, 109])
        (⟨[("1", 0)], []⟩ : PRState Nat)).1
      = some (ClientError.stdioProcessError "boom")
    ∧ (0, PREvent.closed) ∈ (actorCleanup (some [98, 111, 111, 109])
        (⟨[("1", 0)], []⟩ : PRState Nat)).2.events := by
  obtain ⟨h1, h2, h3, h4, h5⟩ := stdio_actor_cleanup (some [98, 111, 111, 109])
    (⟨[("1", 0)], []⟩ : PRState Nat)
  refine ⟨?_, h2 ("1", 0) (by simp)⟩
  rw [h3 [98, 111, 111, 109] rfl (by decide)]
  decide

/-- C8: sending through the client transport handle: a request enqueues an
envelope with a one-shot slot and returns `Some(response)` when the slot
resolves; an enqueue failure or slot cancellation yields `ChannelClosed`;
a notification enqueues without a slot and returns `None` on success; and
in every case a pending error on the failure channel is returned instead,
overriding the send's own result. -/
theorem transport_handle_send_behaviour (env : SendEnv) (req : JsonRpcRequest)
    (note : JsonRpcNotification) :
    (env.failure = none → env.enqueue = EnqueueResult.delivered →
        ∀ resp, env.slot = SlotOutcome.resolved (.ok resp) →
        handleSend env (.request req) = .ok (some resp))
    ∧ (env.failure = none → env.enqueue = EnqueueResult.closed →
        handleSend env (.request req) = .error ClientError.channelClosed)
    ∧ (env.failure = none → env.enqueue = EnqueueResult.delivered →
        env.slot = SlotOutcome.cancelled →
        handleSend env (.request req) = .error ClientError.channelClosed)
    ∧ (env.failure = none → env.enqueue = EnqueueResult.closed →
        handleSend env (.notification note) = .error ClientError.channelClosed)
    ∧ (env.failure = none → env.enqueue = EnqueueResult.delivered →
        handleSend env (.notification note) = .ok none)
    ∧ (∀ e, env.failure = some e → ∀ msg, handleSend env msg = .error e) := by
  refine ⟨?_, ?_, ?_, ?_, ?_, ?_⟩
  · intro h1 h2 resp h3
    simp [handleSend, sendMessageModel, h1, h2, h3]
  · intro h1 h2
    simp [handleSend, sendMessageModel, h1, h2]
  · intro h1 h2 h3
    simp [handleSend, sendMessageModel, h1, h2, h3]
  · intro h1 h2
    simp [handleSend, sendMessageModel, h1, h2]
  · intro h1 h2
    simp [handleSend, sendMessageModel, h1, h2]
  · intro e h1 msg
    simp [handleSend, h1]

theorem transport_handle_send_behaviour_witness :
    handleSend ⟨EnqueueResult.delivered,
        SlotOutcome.resolved (.ok (JsonRpcResponse.success "2.0" "1" Json.null)), none⟩
      (.request ⟨"1", "ping", Json.null⟩)
      = .ok (some (JsonRpcResponse.success "2.0" "1" Json.null)) :=
  (transport_handle_send_behaviour
      ⟨EnqueueResult.delivered,
        SlotOutcome.resolved (.ok (JsonRpcResponse.success "2.0" "1" Json.null)), none⟩
      ⟨"1", "ping", Json.null⟩ ⟨"n", Json.null⟩).1 rfl rfl
    (JsonRpcResponse.success "2.0" "1" Json.null) rfl

/-- C9: inserting a value into the `Context` keys it by the type tag of
the wrapping `Inject<T>`; `get::<Inject<T>>()` then returns the stored
value, and `from_context` returns a clone sharing the same referent; when
no `Inject<T>` entry is present, `from_context` panics rather than
returning a fallback. -/
theorem context_insert_get_inject (B : Nat → Type) (t : RTy)
    (ctx ctxAbsent : Context B) (v : Inject (RTy.denote B t))
    (habsent : ctxAbsent.get (RTy.inject t) = none) :
    (ctx.insert v).get (RTy.inject t) = some v
    ∧ fromContext t (ctx.insert v) = Panic.ok v.clone
    ∧ v.clone.arc.refId = v.arc.refId
    ∧ fromContext t ctxAbsent = Panic.panicked := by
  have hget : (ctx.insert v).get (RTy.inject t) = some v := by
    show ctxFind (RTy.inject t) (⟨RTy.inject t, v⟩ :: ctx.map) = some v
    rw [ctxFind, dif_pos rfl]
  refine ⟨hget, ?_, rfl, ?_⟩
  · rw [fromContext, hget]
  · rw [fromContext, habsent]

/-- Base-type family used to instantiate the context claim concretely. -/
def c9Base : Nat → Type := fun _ => Nat

/-- Stored shared value used to instantiate the context claim. -/
def c9Value : Inject (RTy.denote c9Base (RTy.base 0)) := ⟨⟨7, (3 : Nat)⟩⟩

theorem context_insert_get_inject_witness :
    (Context.insert (⟨[]⟩ : Context c9Base) c9Value).get
        (RTy.inject (RTy.base 0)) = some c9Value
    ∧ fromContext (RTy.base 0) (Context.insert (⟨[]⟩ : Context c9Base)
        c9Value) = Panic.ok c9Value.clone
    ∧ c9Value.clone.arc.refId = c9Value.arc.refId
    ∧ fromContext (RTy.base 0) (⟨[]⟩ : Context c9Base) = Panic.panicked :=
  context_insert_get_inject c9Base (RTy.base 0) ⟨[]⟩ ⟨[]⟩ c9Value rfl

/-- C10: `StdioTransport::close` is a no-op that returns `Ok(())`; it does
not signal, kill or wait for the child and does not stop the actor (the
world state is unchanged); the child is configured with `kill_on_drop`, so
it is terminated exactly when the actor holding it is dropped. -/
theorem stdio_transport_close_noop (t : StdioTransport) (w w2 : ProcessWorld) :
    StdioTransport.close t w = (Except.ok (), w)
    ∧ t.spawnConfig.killOnDrop = true
    ∧ (dropActor t.spawnConfig w2).childAlive = false
    ∧ (dropActor t.spawnConfig w2).actorRunning = false := by
  refine ⟨rfl, rfl, ?_, rfl⟩
  simp [dropActor, StdioTransport.spawnConfig]
